import Mathlib

/-!
Verification development for the Replitex bulk text-substitution engine
(`FileProcessorWorker` in `src/main.py`).

Shallow embedding conventions:
* Python `str` values are modelled as lists of Unicode code points (`Str := List Nat`),
  Python `bytes` as `List Nat` of byte values.
* `str.lower` is modelled at the ASCII level (`lowerChar` maps `A`-`Z` to `a`-`z`
  and is the identity elsewhere), and the regex word-character class `\w` is
  modelled by the ASCII rule `[A-Za-z0-9_]` (`isWordChar`).  Where the
  difference between `str.lower` and the `re.IGNORECASE` machinery matters
  (claim C4), the IGNORECASE comparison is refined to `sreEqCI`, which adds
  CPython's `re._casefix._EXTRA_CASES` equivalence table.
* Filesystem trees are `FSTree` values; file contents are stored as decoded text
  (every real file decodes, since the `latin-1` fallback of `_read_file`
  cannot fail - proved below for the byte-level codec model).
* File names are assumed not to contain the path separator `/` (code point 47),
  so `os.path.basename` of a joined path is the last component.
-/

/-- A Python string, as its list of Unicode code points. -/
abbrev Str := List Nat

/-- Code-point list of a Lean string literal (used to write concrete inputs readably). -/
def strLit (s : String) : Str := s.data.map Char.toNat

/-- ASCII model of Python `str.lower` on one code point. -/
def lowerChar (c : Nat) : Nat := if 65 ≤ c ∧ c ≤ 90 then c + 32 else c

/-- `str.lower` on a whole string. -/
def lowerStr (s : Str) : Str := s.map lowerChar

/-- ASCII model of the regex word-character class `\w`: letters, digits, underscore. -/
def isWordChar (c : Nat) : Bool :=
  decide ((65 ≤ c ∧ c ≤ 90) ∨ (97 ≤ c ∧ c ≤ 122) ∨ (48 ≤ c ∧ c ≤ 57) ∨ c = 95)

/-- Case-insensitive code-point comparison, the model of `re.IGNORECASE` matching. -/
def eqCI (a b : Nat) : Bool := lowerChar a == lowerChar b

/-- Exact code-point comparison (case-sensitive matching). -/
def eqCS (a b : Nat) : Bool := a == b

/-- `pat` matches the front of `txt`, comparing code points with `ceq`. -/
def ceqPre (ceq : Nat → Nat → Bool) : Str → Str → Bool
  | [], _ => true
  | _ :: _, [] => false
  | p :: ps, t :: ts => ceq p t && ceqPre ceq ps ts

/-- `pat` occurs somewhere in `txt` under `ceq` (model of the Python `in` operator
when `ceq` is exact equality, and of an unanchored regex search on a literal
pattern otherwise). -/
def containsB (ceq : Nat → Nat → Bool) (pat : Str) : Str → Bool
  | [] => pat.isEmpty
  | t :: ts => ceqPre ceq pat (t :: ts) || containsB ceq pat ts

/-- Word-character status of the first character of `txt` (`false` at the end
of the string: string edges count as non-word for `\b`). -/
def headW (txt : Str) : Bool :=
  match txt with
  | [] => false
  | c :: _ => isWordChar c

/-- Word-character status of the last character of `matched`, falling back to the
status `prevW` of the preceding character when `matched` is empty. -/
def lastW (prevW : Bool) (matched : Str) : Bool :=
  match matched.getLast? with
  | some c => isWordChar c
  | none => prevW

/-- The regex `\b pat \b` matches at the current position: `pat` is a `ceq`-front
match of `txt`, the `\b` before it holds (word status changes between the
previous character, whose status is `prevW`, and the first matched character),
and the `\b` after it holds. -/
def wwHit (ceq : Nat → Nat → Bool) (pat : Str) (prevW : Bool) (txt : Str) : Bool :=
  ceqPre ceq pat txt &&
  (prevW != headW txt) &&
  (lastW prevW (txt.take pat.length) != headW (txt.drop pat.length))

/-- Unanchored search for `\b pat \b` over `txt`, scanning left to right;
`prevW` is the word status of the character before the current position. -/
def wwSearchAux (ceq : Nat → Nat → Bool) (pat : Str) (prevW : Bool) : Str → Bool
  | [] => wwHit ceq pat prevW []
  | c :: rest => wwHit ceq pat prevW (c :: rest) || wwSearchAux ceq pat (isWordChar c) rest

/-- `re.search(r'\b' + re.escape(pat) + r'\b', txt)` as a Boolean. -/
def wwSearch (ceq : Nat → Nat → Bool) (pat txt : Str) : Bool :=
  wwSearchAux ceq pat false txt

/-- `re.sub(r'\b' + re.escape(pat) + r'\b', rep, txt)`: leftmost non-overlapping
replacement of boundary-delimited occurrences; `prevW` is the word status of the
character of the original text preceding the current position.  The `fuel`
argument only makes the skipping recursion structural; `fuel ≥ txt.length`
always suffices. -/
def wwSubAux (ceq : Nat → Nat → Bool) (pat rep : Str) : Nat → Bool → Str → Str
  | _, _, [] => []
  | 0, _, txt => txt
  | fuel + 1, prevW, c :: rest =>
    if wwHit ceq pat prevW (c :: rest) then
      rep ++ wwSubAux ceq pat rep fuel (lastW prevW ((c :: rest).take pat.length))
        (rest.drop (pat.length - 1))
    else
      c :: wwSubAux ceq pat rep fuel (isWordChar c) rest

/-- Whole-word substitution starting at the beginning of the string. -/
def wwSub (ceq : Nat → Nat → Bool) (pat rep txt : Str) : Str :=
  wwSubAux ceq pat rep txt.length false txt

/-- Leftmost non-overlapping substring replacement under `ceq`, fuelled like
`wwSubAux`: the model of Python `str.replace` (with `eqCS`) and of `re.sub` on
an escaped literal pattern with `re.IGNORECASE` (with `eqCI`). -/
def subScanAux (ceq : Nat → Nat → Bool) (pat rep : Str) : Nat → Str → Str
  | _, [] => []
  | 0, txt => txt
  | fuel + 1, c :: rest =>
    if ceqPre ceq pat (c :: rest) then
      rep ++ subScanAux ceq pat rep fuel (rest.drop (pat.length - 1))
    else
      c :: subScanAux ceq pat rep fuel rest

/-- Leftmost non-overlapping substring replacement under `ceq`. -/
def subScan (ceq : Nat → Nat → Bool) (pat rep : Str) (txt : Str) : Str :=
  subScanAux ceq pat rep txt.length txt

/-- Engine configuration after `setup_parameters` (ignored words already
lower-cased, ignored extensions already lower-cased, paths normalized). -/
structure Config where
  folderPath : Str
  findText : Str
  replaceText : Str
  caseSensitive : Bool
  wholeWords : Bool
  includeSubfolders : Bool
  ignoredWords : List Str
  ignoredPaths : List Str
  ignoredExtensions : List Str
deriving DecidableEq

/-- `FileProcessorWorker._text_matches` (src/main.py lines 503-513). -/
def textMatches (cfg : Config) (text : Str) : Bool :=
  if cfg.findText.isEmpty then false
  else
    let searchText := if cfg.caseSensitive then cfg.findText else lowerStr cfg.findText
    let targetText := if cfg.caseSensitive then text else lowerStr text
    if cfg.wholeWords then
      wwSearch (if cfg.caseSensitive then eqCS else eqCI) searchText targetText
    else
      containsB eqCS searchText targetText

/-- `FileProcessorWorker._replace_text_in_string` (src/main.py lines 515-527).
The replacement text is inserted literally (the Python code passes it to
`re.sub`, whose template escapes are not modelled). -/
def replaceTextInString (cfg : Config) (text : Str) : Str :=
  if cfg.findText.isEmpty then text
  else if cfg.wholeWords then
    wwSub (if cfg.caseSensitive then eqCS else eqCI) cfg.findText cfg.replaceText text
  else if cfg.caseSensitive then
    subScan eqCS cfg.findText cfg.replaceText text
  else
    subScan eqCI cfg.findText cfg.replaceText text

example : textMatches ⟨[], strLit "cat", [], true, true, false, [], [], []⟩ (strLit "the cat sat") = true := by decide
example : textMatches ⟨[], strLit "cat", [], true, true, false, [], [], []⟩ (strLit "concatenate") = false := by decide
example : replaceTextInString ⟨[], strLit "a", strLit "b", true, false, false, [], [], []⟩ (strLit "aaa") = strLit "bbb" := by decide
example : replaceTextInString ⟨[], strLit "Foo", strLit "X", false, false, false, [], [], []⟩ (strLit "fOo bar FOO") = strLit "X bar X" := by decide


/-! ### Case-folding invariance of the matcher primitives -/

theorem lowerStr_cons (c : Nat) (s : Str) : lowerStr (c :: s) = lowerChar c :: lowerStr s := rfl

theorem lowerChar_lowerChar (c : Nat) : lowerChar (lowerChar c) = lowerChar c := by
  unfold lowerChar
  by_cases h : 65 ≤ c ∧ c ≤ 90
  · rw [if_pos h, if_neg (by omega)]
  · rw [if_neg h, if_neg h]

theorem isWordChar_lowerChar (c : Nat) : isWordChar (lowerChar c) = isWordChar c := by
  unfold isWordChar
  rw [decide_eq_decide]
  unfold lowerChar
  split <;> omega

theorem eqCI_lowerChar_left (a b : Nat) : eqCI (lowerChar a) b = eqCI a b := by
  unfold eqCI; rw [lowerChar_lowerChar]

theorem eqCI_lowerChar_right (a b : Nat) : eqCI a (lowerChar b) = eqCI a b := by
  unfold eqCI; rw [lowerChar_lowerChar]

theorem ceqPre_eqCS_lower (p t : Str) :
    ceqPre eqCS (lowerStr p) (lowerStr t) = ceqPre eqCI p t := by
  induction p generalizing t with
  | nil => rfl
  | cons a ps ih =>
    cases t with
    | nil => rfl
    | cons b ts =>
      rw [lowerStr_cons, lowerStr_cons]
      simp only [ceqPre]
      rw [ih ts]
      rfl

theorem containsB_eqCS_lower (p t : Str) :
    containsB eqCS (lowerStr p) (lowerStr t) = containsB eqCI p t := by
  induction t with
  | nil => cases p <;> rfl
  | cons b ts ih =>
    rw [lowerStr_cons]
    simp only [containsB]
    rw [← lowerStr_cons, ceqPre_eqCS_lower, ih]

theorem ceqPre_eqCI_lower (p t : Str) :
    ceqPre eqCI (lowerStr p) (lowerStr t) = ceqPre eqCI p t := by
  induction p generalizing t with
  | nil => rfl
  | cons a ps ih =>
    cases t with
    | nil => rfl
    | cons b ts =>
      rw [lowerStr_cons, lowerStr_cons]
      simp only [ceqPre]
      rw [ih ts, eqCI_lowerChar_left, eqCI_lowerChar_right]

theorem headW_lower (t : Str) : headW (lowerStr t) = headW t := by
  cases t <;> simp [headW, lowerStr, isWordChar_lowerChar]

theorem lastW_lower (w : Bool) (t : Str) : lastW w (lowerStr t) = lastW w t := by
  unfold lastW lowerStr
  rw [List.getLast?_map]
  cases t.getLast? <;> simp [isWordChar_lowerChar]

theorem wwHit_lower (p : Str) (w : Bool) (t : Str) :
    wwHit eqCI (lowerStr p) w (lowerStr t) = wwHit eqCI p w t := by
  unfold wwHit
  rw [ceqPre_eqCI_lower, headW_lower]
  have hlen : (lowerStr p).length = p.length := List.length_map _ _
  rw [hlen, show (lowerStr t).take p.length = lowerStr (t.take p.length) from
      (List.map_take ..).symm,
    show (lowerStr t).drop p.length = lowerStr (t.drop p.length) from (List.map_drop ..).symm,
    lastW_lower, headW_lower]

theorem wwSearchAux_lower (p : Str) (w : Bool) (t : Str) :
    wwSearchAux eqCI (lowerStr p) w (lowerStr t) = wwSearchAux eqCI p w t := by
  induction t generalizing w with
  | nil =>
    show wwSearchAux eqCI (lowerStr p) w (lowerStr []) = _
    simp only [wwSearchAux]
    exact wwHit_lower p w []
  | cons c ts ih =>
    rw [lowerStr_cons]
    simp only [wwSearchAux]
    rw [← lowerStr_cons, wwHit_lower, ih, isWordChar_lowerChar]

/-! ### No match means no-op replacement -/

theorem subScanAux_id (ceq : Nat → Nat → Bool) (pat rep : Str) :
    ∀ (fuel : Nat) (txt : Str), containsB ceq pat txt = false →
      subScanAux ceq pat rep fuel txt = txt := by
  intro fuel
  induction fuel with
  | zero =>
    intro txt _
    cases txt <;> rfl
  | succ n ih =>
    intro txt h
    cases txt with
    | nil => rfl
    | cons c rest =>
      simp only [containsB, Bool.or_eq_false_iff] at h
      simp only [subScanAux, h.1, Bool.false_eq_true, if_false]
      rw [ih rest h.2]

theorem wwSubAux_id (ceq : Nat → Nat → Bool) (pat rep : Str) :
    ∀ (fuel : Nat) (w : Bool) (txt : Str), wwSearchAux ceq pat w txt = false →
      wwSubAux ceq pat rep fuel w txt = txt := by
  intro fuel
  induction fuel with
  | zero =>
    intro w txt _
    cases txt <;> rfl
  | succ n ih =>
    intro w txt h
    cases txt with
    | nil => rfl
    | cons c rest =>
      simp only [wwSearchAux, Bool.or_eq_false_iff] at h
      simp only [wwSubAux, h.1, Bool.false_eq_true, if_false]
      rw [ih (isWordChar c) rest h.2]

/-! ### The refined `re.IGNORECASE` comparison

`_text_matches` lower-cases with `str.lower` (full case mapping) and uses `in`,
while `_replace_text_in_string` delegates to `re.sub` with `re.IGNORECASE`,
which simple-lowercases both sides and additionally identifies the code points
of CPython's `re._casefix._EXTRA_CASES` table.  The two mechanisms agree on
ASCII but not in general (e.g. MICRO SIGN U+00B5 vs GREEK SMALL LETTER MU
U+03BC), which claim C4 turns on. -/

/-- CPython's `re._casefix._EXTRA_CASES` (re/_casefix.py, CPython 3.11): after
simple-lowercasing, an IGNORECASE literal `l` additionally matches the listed
code points. -/
def sreExtraCases : List (Nat × List Nat) := [
  (105, [305]), (115, [383]), (181, [956]), (305, [105]), (383, [115]),
  (837, [953, 8126]), (912, [8147]), (944, [8163]), (946, [976]), (949, [1013]),
  (952, [977]), (953, [837, 8126]), (954, [1008]), (956, [181]), (960, [982]),
  (961, [1009]), (962, [963]), (963, [962]), (966, [981]), (976, [946]),
  (977, [952]), (981, [966]), (982, [960]), (1008, [954]), (1009, [961]),
  (1013, [949]), (1074, [7296]), (1076, [7297]), (1086, [7298]), (1089, [7299]),
  (1090, [7300, 7301]), (1098, [7302]), (1123, [7303]), (7296, [1074]),
  (7297, [1076]), (7298, [1086]), (7299, [1089]), (7300, [1090, 7301]),
  (7301, [1090, 7300]), (7302, [1098]), (7303, [1123]), (7304, [42571]),
  (7777, [7835]), (7835, [7777]), (8126, [837, 953]), (8147, [912]),
  (8163, [944]), (42571, [7304]), (64261, [64262]), (64262, [64261])]

/-- The extra matches of a lowered pattern literal. -/
def sreExtra (l : Nat) : List Nat :=
  match sreExtraCases.find? (fun e => e.1 == l) with
  | some e => e.2
  | none => []

/-- Refined model of one `re.IGNORECASE` literal comparison, as CPython's `re`
performs it (re/_compiler.py): the pattern literal and the input character are
simple-lowercased, and they match if equal or if the input is one of the
`_EXTRA_CASES` equivalents of the literal.  Simple lowercasing is modelled by
`lowerChar`, which is exact on ASCII and on every character that
simple-lowercases to itself (all members of the table do); `eqCI` is this
comparison with the equivalence table dropped. -/
def sreEqCI (p c : Nat) : Bool :=
  lowerChar p == lowerChar c || lowerChar c ∈ sreExtra (lowerChar p)

/-- All code points of a string are ASCII. -/
def allAscii (s : Str) : Bool := s.all (fun c => c < 128)

/-- `_replace_text_in_string` under the refined IGNORECASE model: identical to
`replaceTextInString` except that the case-insensitive branches compare
characters with `sreEqCI` instead of `eqCI`. -/
def replaceTextInStringU (cfg : Config) (text : Str) : Str :=
  if cfg.findText.isEmpty then text
  else if cfg.wholeWords then
    wwSub (if cfg.caseSensitive then eqCS else sreEqCI) cfg.findText cfg.replaceText text
  else if cfg.caseSensitive then
    subScan eqCS cfg.findText cfg.replaceText text
  else
    subScan sreEqCI cfg.findText cfg.replaceText text

theorem lowerChar_lt_128 {c : Nat} (h : c < 128) : lowerChar c < 128 := by
  unfold lowerChar
  split <;> omega

set_option maxRecDepth 4096 in
theorem sreExtra_ascii : ∀ l < 128, ∀ m < 128, m ∉ sreExtra l := by decide

/-- On ASCII characters the refined IGNORECASE comparison coincides with the
ASCII model `eqCI` (the only ASCII entries of the table, `i` and `s`, have only
non-ASCII equivalents). -/
theorem sreEqCI_ascii {p c : Nat} (hp : p < 128) (hc : c < 128) :
    sreEqCI p c = eqCI p c := by
  unfold sreEqCI eqCI
  have hmem : lowerChar c ∉ sreExtra (lowerChar p) :=
    sreExtra_ascii _ (lowerChar_lt_128 hp) _ (lowerChar_lt_128 hc)
  simp [hmem]

theorem allAscii_mem {s : Str} (h : allAscii s = true) {c : Nat} (hc : c ∈ s) : c < 128 :=
  of_decide_eq_true (List.all_eq_true.mp h c hc)

theorem ceqPre_congr (ceq1 ceq2 : Nat → Nat → Bool) :
    ∀ (pat txt : Str), (∀ a ∈ pat, ∀ b ∈ txt, ceq1 a b = ceq2 a b) →
      ceqPre ceq1 pat txt = ceqPre ceq2 pat txt := by
  intro pat
  induction pat with
  | nil => intro txt _; rfl
  | cons p ps ih =>
    intro txt h
    cases txt with
    | nil => rfl
    | cons t ts =>
      simp only [ceqPre]
      rw [h p (List.mem_cons_self _ _) t (List.mem_cons_self _ _),
        ih ts (fun a ha b hb => h a (List.mem_cons_of_mem _ ha) b (List.mem_cons_of_mem _ hb))]

theorem wwHit_congr (ceq1 ceq2 : Nat → Nat → Bool) (pat txt : Str) (w : Bool)
    (h : ∀ a ∈ pat, ∀ b ∈ txt, ceq1 a b = ceq2 a b) :
    wwHit ceq1 pat w txt = wwHit ceq2 pat w txt := by
  unfold wwHit
  rw [ceqPre_congr ceq1 ceq2 pat txt h]

theorem subScanAux_congr (ceq1 ceq2 : Nat → Nat → Bool) (pat rep : Str) :
    ∀ (fuel : Nat) (txt : Str), (∀ a ∈ pat, ∀ b ∈ txt, ceq1 a b = ceq2 a b) →
      subScanAux ceq1 pat rep fuel txt = subScanAux ceq2 pat rep fuel txt := by
  intro fuel
  induction fuel with
  | zero => intro txt _; cases txt <;> rfl
  | succ fuel ih =>
    intro txt h
    cases txt with
    | nil => rfl
    | cons c rest =>
      simp only [subScanAux]
      rw [ceqPre_congr ceq1 ceq2 pat (c :: rest) h]
      split
      · rw [ih _ (fun a ha b hb => h a ha b
          (List.mem_cons_of_mem _ (List.drop_subset _ _ hb)))]
      · rw [ih rest (fun a ha b hb => h a ha b (List.mem_cons_of_mem _ hb))]

theorem wwSubAux_congr (ceq1 ceq2 : Nat → Nat → Bool) (pat rep : Str) :
    ∀ (fuel : Nat) (w : Bool) (txt : Str), (∀ a ∈ pat, ∀ b ∈ txt, ceq1 a b = ceq2 a b) →
      wwSubAux ceq1 pat rep fuel w txt = wwSubAux ceq2 pat rep fuel w txt := by
  intro fuel
  induction fuel with
  | zero => intro w txt _; cases txt <;> rfl
  | succ fuel ih =>
    intro w txt h
    cases txt with
    | nil => rfl
    | cons c rest =>
      simp only [wwSubAux]
      rw [wwHit_congr ceq1 ceq2 pat (c :: rest) w h]
      split
      · rw [ih _ _ (fun a ha b hb => h a ha b
          (List.mem_cons_of_mem _ (List.drop_subset _ _ hb)))]
      · rw [ih _ rest (fun a ha b hb => h a ha b (List.mem_cons_of_mem _ hb))]

/-- In case-sensitive mode, or on ASCII search text and text, the refined and
the ASCII models of `_replace_text_in_string` compute the same string. -/
theorem replaceTextInStringU_eq (cfg : Config) (T : Str)
    (hA : cfg.caseSensitive = true ∨ (allAscii cfg.findText = true ∧ allAscii T = true)) :
    replaceTextInStringU cfg T = replaceTextInString cfg T := by
  unfold replaceTextInStringU replaceTextInString
  cases hcs : cfg.caseSensitive with
  | true => simp only [if_true]
  | false =>
    rcases hA with h | ⟨hf, ht⟩
    · rw [hcs] at h
      exact absurd h Bool.false_ne_true
    have hcc : ∀ a ∈ cfg.findText, ∀ b ∈ T, sreEqCI a b = eqCI a b :=
      fun a ha b hb => sreEqCI_ascii (allAscii_mem hf ha) (allAscii_mem ht hb)
    simp only [hcs, Bool.false_eq_true, if_false]
    split
    · rfl
    · split
      · exact wwSubAux_congr sreEqCI eqCI cfg.findText cfg.replaceText T.length false T hcc
      · exact subScanAux_congr sreEqCI eqCI cfg.findText cfg.replaceText T.length T hcc

/-- Claim C4 (counterexample to the claim as stated): in case-insensitive mode,
with search text `µ` (U+00B5 MICRO SIGN, code point 181) and text `μ` (U+03BC
GREEK SMALL LETTER MU, code point 956), `_text_matches` is false — `str.lower`
fixes both characters (both are already lower case), and `'µ' in 'μ'` fails —
yet `re.sub` with `re.IGNORECASE` identifies the two through the
`_EXTRA_CASES` table and rewrites the text, so `_replace_text_in_string` is not
a no-op: the program falsifies the claim. -/
theorem claim_C4_counterexample :
    textMatches ⟨[], [181], [114], false, false, false, [], [], []⟩ [956] = false ∧
    replaceTextInStringU ⟨[], [181], [114], false, false, false, [], [], []⟩ [956] = [114] ∧
    sreEqCI 181 956 = true ∧ eqCI 181 956 = false :=
  ⟨by decide, by decide, by decide, by decide⟩

/-- Claim C4 (amended): the no-match no-op law for `_replace_text_in_string`
holds in case-sensitive mode for every text, and in case-insensitive mode
whenever the search text and the text are ASCII, where `str.lower` and the
`re.IGNORECASE` machinery coincide; it is stated over the refined model
`replaceTextInStringU` of the IGNORECASE comparison, and holds for the ASCII
model `replaceTextInString` as well.  Without the ASCII restriction the law
fails in the program: see `claim_C4_counterexample`. -/
theorem claim_C4_no_match_replace_noop (cfg : Config) (T : Str)
    (hS : cfg.findText ≠ [])
    (hA : cfg.caseSensitive = true ∨ (allAscii cfg.findText = true ∧ allAscii T = true))
    (h : textMatches cfg T = false) :
    replaceTextInStringU cfg T = T ∧ replaceTextInString cfg T = T := by
  have hne : cfg.findText.isEmpty = false := by
    cases hfe : cfg.findText with
    | nil => exact absurd hfe hS
    | cons a l => rfl
  have horig : replaceTextInString cfg T = T := by
    unfold textMatches at h
    unfold replaceTextInString
    cases hww : cfg.wholeWords <;> cases hcs : cfg.caseSensitive <;>
      simp only [hne, hww, hcs, Bool.false_eq_true, if_false, if_true] at h ⊢
    · rw [containsB_eqCS_lower] at h
      exact subScanAux_id _ _ _ _ _ h
    · exact subScanAux_id _ _ _ _ _ h
    · unfold wwSearch at h
      rw [wwSearchAux_lower] at h
      exact wwSubAux_id _ _ _ _ _ _ h
    · exact wwSubAux_id _ _ _ _ _ _ h
  exact ⟨(replaceTextInStringU_eq cfg T hA).trans horig, horig⟩

/-- Witness for C4 at a concrete input: search "cat" (whole-word,
case-insensitive, all ASCII) does not match "the cattle", so replacement — in
the refined model too — is a no-op. -/
theorem claim_C4_no_match_replace_noop_witness :
    (⟨[], strLit "cat", strLit "dog", false, true, false, [], [], []⟩ : Config).findText ≠ [] ∧
    textMatches ⟨[], strLit "cat", strLit "dog", false, true, false, [], [], []⟩
      (strLit "the cattle") = false ∧
    replaceTextInStringU ⟨[], strLit "cat", strLit "dog", false, true, false, [], [], []⟩
      (strLit "the cattle") = strLit "the cattle" :=
  ⟨by decide, by decide,
    (claim_C4_no_match_replace_noop _ _ (by decide)
      (Or.inr ⟨by decide, by decide⟩) (by decide)).1⟩

/-! ### Whole-word matching, position by position -/

/-- Word status of the character before position `i` of `txt` (string start counts
as non-word). -/
def prevWAt (txt : Str) (i : Nat) : Bool :=
  if i = 0 then false else isWordChar (txt.getD (i - 1) 0)

/-- The regex `\b pat \b` matches at position `i` of `txt` (code-side semantics:
`\b` holds where word status changes, string edges counting as non-word). -/
def wwHitAt (ceq : Nat → Nat → Bool) (pat txt : Str) (i : Nat) : Bool :=
  wwHit ceq pat (prevWAt txt i) (txt.drop i)

/-- Spec-side predicate: `pat` occurs at position `i` of `txt` and the occurrence
is bounded on both sides by a non-word character or a string edge. -/
def bbBoundedAt (ceq : Nat → Nat → Bool) (pat txt : Str) (i : Nat) : Bool :=
  ceqPre ceq pat (txt.drop i) &&
  (i == 0 || !isWordChar (txt.getD (i - 1) 0)) &&
  (i + pat.length == txt.length || !isWordChar (txt.getD (i + pat.length) 0))

/-- Number of bounded occurrences of `pat` in `txt`. -/
def bbCount (ceq : Nat → Nat → Bool) (pat txt : Str) : Nat :=
  ((List.range (txt.length + 1)).filter (fun i => bbBoundedAt ceq pat txt i)).length

/-- The character comparison used by the matcher for a given configuration. -/
def ceqOf (cfg : Config) : Nat → Nat → Bool :=
  if cfg.caseSensitive then eqCS else eqCI

theorem wwSearchAux_iff_exists (ceq : Nat → Nat → Bool) (pat : Str) :
    ∀ (txt : Str) (w : Bool),
      wwSearchAux ceq pat w txt = true ↔
        ∃ i, i ≤ txt.length ∧
          wwHit ceq pat (if i = 0 then w else isWordChar (txt.getD (i - 1) 0))
            (txt.drop i) = true := by
  intro txt
  induction txt with
  | nil =>
    intro w
    simp only [wwSearchAux, List.length_nil, Nat.le_zero]
    constructor
    · intro h
      exact ⟨0, rfl, by simpa using h⟩
    · rintro ⟨i, hi, h⟩
      subst hi
      simpa using h
  | cons c ts ih =>
    intro w
    simp only [wwSearchAux, Bool.or_eq_true]
    constructor
    · rintro (h | h)
      · exact ⟨0, by simp, by simpa using h⟩
      · obtain ⟨i, hi, h⟩ := (ih (isWordChar c)).mp h
        refine ⟨i + 1, by simpa using hi, ?_⟩
        cases i with
        | zero => simpa using h
        | succ j => simpa using h
    · rintro ⟨i, hi, h⟩
      cases i with
      | zero => exact Or.inl (by simpa using h)
      | succ j =>
        refine Or.inr ((ih (isWordChar c)).mpr ⟨j, by simpa using hi, ?_⟩)
        cases j with
        | zero => simpa using h
        | succ k => simpa using h

/-- The code's whole-word matcher succeeds exactly when `\b pat \b` matches at
some position (after folding the case-insensitive variant onto the original
strings). -/
theorem textMatches_ww_iff (cfg : Config) (T : Str)
    (hww : cfg.wholeWords = true) (hS : cfg.findText ≠ []) :
    (textMatches cfg T = true ↔
      ∃ i, i ≤ T.length ∧ wwHitAt (ceqOf cfg) cfg.findText T i = true) := by
  have hne : cfg.findText.isEmpty = false := by
    cases hfe : cfg.findText with
    | nil => exact absurd hfe hS
    | cons a l => rfl
  unfold textMatches
  unfold ceqOf wwHitAt prevWAt
  cases hcs : cfg.caseSensitive
  · simp only [hne, hww, hcs, Bool.false_eq_true, if_false, if_true]
    unfold wwSearch
    rw [wwSearchAux_lower, wwSearchAux_iff_exists]
  · simp only [hne, hww, hcs, Bool.false_eq_true, if_false, if_true]
    unfold wwSearch
    rw [wwSearchAux_iff_exists]

theorem ceqPre_length {ceq : Nat → Nat → Bool} :
    ∀ {pat txt : Str}, ceqPre ceq pat txt = true → pat.length ≤ txt.length := by
  intro pat
  induction pat with
  | nil => intro txt _; simp
  | cons p ps ih =>
    intro txt h
    cases txt with
    | nil => exact absurd h (by simp [ceqPre])
    | cons t ts =>
      simp only [ceqPre, Bool.and_eq_true] at h
      simpa using ih h.2

theorem headW_ceqPre {ceq : Nat → Nat → Bool}
    (hceq : ∀ a b, ceq a b = true → isWordChar a = isWordChar b) :
    ∀ {pat txt : Str}, pat ≠ [] → ceqPre ceq pat txt = true → headW txt = headW pat := by
  intro pat txt hp h
  cases pat with
  | nil => exact absurd rfl hp
  | cons p ps =>
    cases txt with
    | nil => exact absurd h (by simp [ceqPre])
    | cons t ts =>
      simp only [ceqPre, Bool.and_eq_true] at h
      simp only [headW]
      exact (hceq _ _ h.1).symm

theorem lastW_take_ceqPre {ceq : Nat → Nat → Bool}
    (hceq : ∀ a b, ceq a b = true → isWordChar a = isWordChar b) :
    ∀ (pat txt : Str) (w : Bool), pat ≠ [] → ceqPre ceq pat txt = true →
      lastW w (txt.take pat.length) = lastW false pat := by
  intro pat
  induction pat with
  | nil => intro txt w hp _; exact absurd rfl hp
  | cons p ps ih =>
    intro txt w _ h
    cases txt with
    | nil => exact absurd h (by simp [ceqPre])
    | cons t ts =>
      simp only [ceqPre, Bool.and_eq_true] at h
      cases ps with
      | nil =>
        simp only [List.length_cons, List.length_nil, List.take, lastW, List.getLast?]
        exact (hceq _ _ h.1).symm
      | cons q qs =>
        cases ts with
        | nil => exact absurd h.2 (by simp [ceqPre])
        | cons u us =>
          have hrec := ih (u :: us) w (by simp) h.2
          simp only [List.length_cons, List.take] at hrec ⊢
          unfold lastW at hrec ⊢
          rw [List.getLast?_cons_cons, List.getLast?_cons_cons]
          exact hrec

theorem headW_drop : ∀ (txt : Str) (k : Nat),
    headW (txt.drop k) = if k < txt.length then isWordChar (txt.getD k 0) else false := by
  intro txt
  induction txt with
  | nil => intro k; cases k <;> rfl
  | cons c ts ih =>
    intro k
    cases k with
    | zero => simp [headW]
    | succ j =>
      rw [show (c :: ts).drop (j + 1) = ts.drop j from rfl, ih j]
      simp only [List.length_cons, List.getD]
      by_cases h : j < ts.length
      · rw [if_pos h, if_pos (by omega)]
        rfl
      · rw [if_neg h, if_neg (by omega)]

theorem wwHitAt_eq_bbBoundedAt (ceq : Nat → Nat → Bool)
    (hceq : ∀ a b, ceq a b = true → isWordChar a = isWordChar b)
    (pat txt : Str) (hp : pat ≠ []) (hw1 : headW pat = true) (hw2 : lastW false pat = true)
    (i : Nat) :
    wwHitAt ceq pat txt i = bbBoundedAt ceq pat txt i := by
  unfold wwHitAt bbBoundedAt wwHit
  cases hc : ceqPre ceq pat (txt.drop i)
  · rfl
  · have hhead : headW (txt.drop i) = true := by
      rw [headW_ceqPre hceq hp hc]; exact hw1
    have hlast : lastW (prevWAt txt i) ((txt.drop i).take pat.length) = true := by
      rw [lastW_take_ceqPre hceq pat (txt.drop i) _ hp hc]; exact hw2
    have hlen : pat.length ≤ txt.length - i := by
      have := ceqPre_length hc
      simpa using this
    have hipos : i < txt.length := by
      have hnn : txt.drop i ≠ [] := by
        intro hnil
        rw [hnil] at hc
        cases pat with
        | nil => exact hp rfl
        | cons a l => simp [ceqPre] at hc
      have := List.length_drop i txt
      by_contra hcon
      push_neg at hcon
      apply hnn
      apply List.eq_nil_of_length_eq_zero
      omega
    simp only [Bool.true_and, hhead, hlast]
    have hdd : (txt.drop i).drop pat.length = txt.drop (i + pat.length) := by
      rw [List.drop_drop, Nat.add_comm]
    rw [hdd]
    have hstart : (prevWAt txt i != true) = (i == 0 || !isWordChar (txt.getD (i - 1) 0)) := by
      unfold prevWAt
      cases i with
      | zero => rfl
      | succ j => simp
    have hend : (true != headW (txt.drop (i + pat.length)))
        = (i + pat.length == txt.length || !isWordChar (txt.getD (i + pat.length) 0)) := by
      rw [headW_drop]
      by_cases h : i + pat.length < txt.length
      · rw [if_pos h]
        have : (i + pat.length == txt.length) = false := by
          simp; omega
        rw [this]
        simp
      · rw [if_neg h]
        have : (i + pat.length == txt.length) = true := by
          simp
          omega
        rw [this]
        rfl
    rw [hstart, hend]

theorem ceqOf_word (cfg : Config) : ∀ a b, ceqOf cfg a b = true → isWordChar a = isWordChar b := by
  intro a b
  unfold ceqOf
  cases cfg.caseSensitive <;> simp only [Bool.false_eq_true, if_false, if_true]
  · unfold eqCI
    intro h
    have hl : lowerChar a = lowerChar b := by simpa using h
    rw [← isWordChar_lowerChar a, ← isWordChar_lowerChar b, hl]
  · unfold eqCS
    intro h
    have hab : a = b := by simpa using h
    rw [hab]

/-- Counterexample to claim C9 as stated: with whole-word matching of the search
text "-" (which does not start or end with a word character), the text "a-b"
matches, yet no occurrence of "-" in "a-b" is bounded on both sides by a
non-word character or a string edge (both neighbours are word characters).
So "matches only where bounded by non-word characters or string edges" fails. -/
theorem claim_C9_counterexample :
    textMatches ⟨[], strLit "-", [], true, true, false, [], [], []⟩ (strLit "a-b") = true ∧
    ((List.range ((strLit "a-b").length + 1)).any
      (fun i => bbBoundedAt eqCS (strLit "-") (strLit "a-b") i)) = false := by
  decide

/-- Claim C9 (amended): in whole-word mode the matcher succeeds exactly at the
positions where `\b find \b` matches (word status changing across each side,
string edges counting as non-word); whenever the search text starts *and* ends
with a word character this is exactly "each side is a non-word character or a
string edge"; in particular "cat" never matches in "concatenate", and "cat"
matches "the cat sat", which has exactly one bounded occurrence. -/
theorem claim_C9_whole_word_boundaries :
    (∀ (cfg : Config) (T : Str), cfg.wholeWords = true → cfg.findText ≠ [] →
      ((textMatches cfg T = true ↔
          ∃ i, i ≤ T.length ∧ wwHitAt (ceqOf cfg) cfg.findText T i = true) ∧
       (headW cfg.findText = true → lastW false cfg.findText = true →
        (textMatches cfg T = true ↔
          ∃ i, i ≤ T.length ∧ bbBoundedAt (ceqOf cfg) cfg.findText T i = true)))) ∧
    textMatches ⟨[], strLit "cat", [], true, true, false, [], [], []⟩ (strLit "concatenate")
      = false ∧
    textMatches ⟨[], strLit "cat", [], true, true, false, [], [], []⟩ (strLit "the cat sat")
      = true ∧
    bbCount eqCS (strLit "cat") (strLit "the cat sat") = 1 := by
  refine ⟨?_, by decide, by decide, by decide⟩
  intro cfg T hww hS
  have hmain := textMatches_ww_iff cfg T hww hS
  refine ⟨hmain, fun hw1 hw2 => hmain.trans ?_⟩
  refine exists_congr fun i => and_congr_right fun _ => ?_
  rw [wwHitAt_eq_bbBoundedAt (ceqOf cfg) (ceqOf_word cfg) cfg.findText T hS hw1 hw2 i]

/-- Witness for C9 (amended) at a concrete input: the characterization applied to
the "cat" configuration and the text "the cat sat". -/
theorem claim_C9_whole_word_boundaries_witness :
    (textMatches ⟨[], strLit "cat", [], true, true, false, [], [], []⟩ (strLit "the cat sat")
        = true ↔
      ∃ i, i ≤ (strLit "the cat sat").length ∧
        bbBoundedAt (ceqOf ⟨[], strLit "cat", [], true, true, false, [], [], []⟩)
          (strLit "cat") (strLit "the cat sat") i = true) :=
  (claim_C9_whole_word_boundaries.1 ⟨[], strLit "cat", [], true, true, false, [], [], []⟩
    (strLit "the cat sat") (by decide) (by decide)).2 (by decide) (by decide)

/-! ### The unique-name resolver (`_get_unique_name`, src/main.py lines 167-178) -/

/-- Index of the last occurrence of code point `c` in `s`, if any. -/
def lastIdxOf (c : Nat) (s : Str) : Option Nat :=
  ((List.range s.length).filter (fun i => s.getD i 0 == c)).getLast?

/-- `os.path.splitext` (POSIX flavour: separator `/`, extension separator `.`).
The extension starts at the last dot that comes after the last separator and
after at least one non-dot character of the base name. -/
def splitExt (p : Str) : Str × Str :=
  let sepIdx : Nat := match lastIdxOf 47 p with | some k => k + 1 | none => 0
  match lastIdxOf 46 p with
  | none => (p, [])
  | some d =>
    if sepIdx ≤ d && (List.range d).any (fun j => sepIdx ≤ j && !(p.getD j 0 == 46)) then
      (p.take d, p.drop d)
    else (p, [])

/-- Decimal digits of `n`, most significant first (`fuel`-driven; any
`fuel > n` is enough). -/
def decDigits : Nat → Nat → Str
  | 0, _ => []
  | fuel + 1, n => if n < 10 then [n + 48] else decDigits fuel (n / 10) ++ [n % 10 + 48]

/-- The decimal rendering `f"{n}"` of a natural number. -/
def natStr (n : Nat) : Str := decDigits (n + 1) n

/-- The candidate name `f"{base}_{counter}{ext}"` probed by `_get_unique_name`
(when the extension is empty the two f-strings of the source coincide). -/
def candName (orig : Str) (n : Nat) : Str :=
  (splitExt orig).1 ++ [95] ++ natStr n ++ (splitExt orig).2

/-- The `while True` probe loop of `_get_unique_name`; `entries` is the list of
names that exist in the target directory (`os.path.exists(join(target_dir, ·))`). -/
def probeName (entries : List Str) (orig : Str) : Nat → Nat → Str
  | 0, counter => candName orig counter
  | fuel + 1, counter =>
    if candName orig counter ∈ entries then probeName entries orig fuel (counter + 1)
    else candName orig counter

/-- `FileProcessorWorker._get_unique_name`, with the target directory abstracted
into the list of names existing there.  The fuel `entries.length + 1` is enough
for the probe loop to find a free name (proved below). -/
def getUniqueName (entries : List Str) (orig : Str) : Str :=
  if orig ∈ entries then probeName entries orig (entries.length + 1) 2
  else orig

/-- Reading a decimal string back (left fold). -/
def valOfDigits (s : Str) : Nat := s.foldl (fun acc c => 10 * acc + (c - 48)) 0

theorem decDigits_eq_of_lt (n : Nat) : ∀ (f₁ f₂ : Nat), n < f₁ → n < f₂ →
    decDigits f₁ n = decDigits f₂ n := by
  induction n using Nat.strong_induction_on with
  | _ n ih =>
    intro f₁ f₂ h₁ h₂
    cases f₁ with
    | zero => omega
    | succ a =>
      cases f₂ with
      | zero => omega
      | succ b =>
        simp only [decDigits]
        by_cases h : n < 10
        · rw [if_pos h, if_pos h]
        · rw [if_neg h, if_neg h]
          have hdiv : n / 10 < n := Nat.div_lt_self (by omega) (by omega)
          rw [ih (n / 10) hdiv a b (by omega) (by omega)]

theorem valOfDigits_natStr (n : Nat) : valOfDigits (natStr n) = n := by
  induction n using Nat.strong_induction_on with
  | _ n ih =>
    by_cases h : n < 10
    · simp only [natStr, decDigits, if_pos h, valOfDigits, List.foldl]
      omega
    · have hdiv : n / 10 < n := Nat.div_lt_self (by omega) (by omega)
      have hstep : natStr n = natStr (n / 10) ++ [n % 10 + 48] := by
        rw [show natStr n
            = if n < 10 then [n + 48] else decDigits n (n / 10) ++ [n % 10 + 48] from rfl]
        rw [if_neg h]
        rw [decDigits_eq_of_lt (n / 10) n (n / 10 + 1) (by omega) (by omega)]
        rfl
      rw [hstep]
      unfold valOfDigits at ih ⊢
      rw [List.foldl_append]
      rw [ih (n / 10) hdiv]
      simp only [List.foldl]
      omega

theorem natStr_injective {n m : Nat} (h : natStr n = natStr m) : n = m := by
  have := valOfDigits_natStr n
  rw [h, valOfDigits_natStr] at this
  omega

theorem candName_injective (orig : Str) {n m : Nat} (h : candName orig n = candName orig m) :
    n = m := by
  unfold candName at h
  have h1 := List.append_cancel_right h
  have h2 := List.append_cancel_left h1
  exact natStr_injective h2

theorem probeName_spec (entries : List Str) (orig : Str) : ∀ (fuel counter : Nat),
    (∃ j, j < fuel + 1 ∧ candName orig (counter + j) ∉ entries) →
    ∃ j, j < fuel + 1 ∧ probeName entries orig fuel counter = candName orig (counter + j) ∧
      candName orig (counter + j) ∉ entries ∧
      ∀ k, k < j → candName orig (counter + k) ∈ entries := by
  intro fuel
  induction fuel with
  | zero =>
    intro counter hex
    obtain ⟨j, hj, hfree⟩ := hex
    have hj0 : j = 0 := by omega
    subst hj0
    exact ⟨0, by omega, rfl, hfree, fun k hk => absurd hk (by omega)⟩
  | succ f ih =>
    intro counter hex
    by_cases hmem : candName orig counter ∈ entries
    · have hex' : ∃ j, j < f + 1 ∧ candName orig (counter + 1 + j) ∉ entries := by
        obtain ⟨j, hj, hfree⟩ := hex
        cases j with
        | zero => exact absurd hmem (by simpa using hfree)
        | succ j' =>
          exact ⟨j', by omega, by rw [show counter + 1 + j' = counter + (j' + 1) by omega]; exact hfree⟩
      obtain ⟨j', hj', heq, hfree, hearlier⟩ := ih (counter + 1) hex'
      refine ⟨j' + 1, by omega, ?_, ?_, ?_⟩
      · simp only [probeName, if_pos hmem]
        rw [heq]
        congr 1
        omega
      · rw [show counter + (j' + 1) = counter + 1 + j' by omega]
        exact hfree
      · intro k hk
        cases k with
        | zero => simpa using hmem
        | succ k' =>
          rw [show counter + (k' + 1) = counter + 1 + k' by omega]
          exact hearlier k' (by omega)
    · exact ⟨0, by omega, by simp [probeName, hmem], by simpa using hmem,
        fun k hk => absurd hk (by omega)⟩

theorem exists_free_cand (entries : List Str) (orig : Str) :
    ∃ j, j < entries.length + 1 ∧ candName orig (2 + j) ∉ entries := by
  by_contra hcon
  push_neg at hcon
  have hinj : Function.Injective (fun j : Fin (entries.length + 1) => candName orig (2 + j)) := by
    intro a b hab
    have := candName_injective orig hab
    exact Fin.ext (by omega)
  have hmaps : ∀ j : Fin (entries.length + 1),
      candName orig (2 + (j : Nat)) ∈ entries.toFinset := by
    intro j
    rw [List.mem_toFinset]
    exact hcon j j.isLt
  have hcard : (Finset.univ : Finset (Fin (entries.length + 1))).card
      ≤ entries.toFinset.card :=
    Finset.card_le_card_of_injOn
      (fun j : Fin (entries.length + 1) => candName orig (2 + j))
      (fun j _ => hmaps j) (Function.Injective.injOn hinj)
  rw [Finset.card_univ, Fintype.card_fin] at hcard
  have := List.toFinset_card_le entries
  omega

/-- Claim C8: `_get_unique_name` returns the original name when it is free in
the target directory; otherwise it returns the first candidate
`f"{base}_{n}{ext}"` (base/ext from `os.path.splitext`) for n = 2, 3, ... that
is free, probing against the actual directory contents; in particular with
"note.txt" and "note_2.txt" present, "note.txt" resolves to "note_3.txt". -/
theorem claim_C8_unique_name :
    (∀ (entries : List Str) (orig : Str), orig ∉ entries →
      getUniqueName entries orig = orig) ∧
    (∀ (entries : List Str) (orig : Str), orig ∈ entries →
      ∃ n, 2 ≤ n ∧ getUniqueName entries orig = candName orig n ∧
        candName orig n ∉ entries ∧
        ∀ m, 2 ≤ m → m < n → candName orig m ∈ entries) ∧
    getUniqueName [strLit "note.txt", strLit "note_2.txt"] (strLit "note.txt")
      = strLit "note_3.txt" := by
  refine ⟨?_, ?_, by decide⟩
  · intro entries orig h
    simp only [getUniqueName, if_neg h]
  · intro entries orig h
    obtain ⟨j0, hj0, hf0⟩ := exists_free_cand entries orig
    obtain ⟨j, hj, heq, hfree, hearlier⟩ :=
      probeName_spec entries orig (entries.length + 1) 2 ⟨j0, by omega, hf0⟩
    refine ⟨2 + j, by omega, ?_, hfree, ?_⟩
    · simp only [getUniqueName, if_pos h]
      exact heq
    · intro m h2 hm
      have := hearlier (m - 2) (by omega)
      rw [show 2 + (m - 2) = m by omega] at this
      exact this

/-- Witness for C8 at a concrete input: resolving "note.txt" against a directory
already holding "note.txt" and "note_2.txt". -/
theorem claim_C8_unique_name_witness :
    strLit "note.txt" ∈ [strLit "note.txt", strLit "note_2.txt"] ∧
    (∃ n, 2 ≤ n ∧
      getUniqueName [strLit "note.txt", strLit "note_2.txt"] (strLit "note.txt")
        = candName (strLit "note.txt") n ∧
      candName (strLit "note.txt") n ∉ [strLit "note.txt", strLit "note_2.txt"] ∧
      ∀ m, 2 ≤ m → m < n →
        candName (strLit "note.txt") m ∈ [strLit "note.txt", strLit "note_2.txt"]) :=
  ⟨by decide, claim_C8_unique_name.2.1 _ _ (by decide)⟩

/-! ### The content codec (`_read_file`, src/main.py lines 561-569) -/

/-- A UTF-8 continuation byte. -/
def isCont (b : Nat) : Bool := 128 ≤ b && b ≤ 191

/-- Strict UTF-8 decoding of a byte list (fuelled: one byte is consumed per
step, so `fuel = l.length` always suffices).  Overlong encodings, surrogates and
code points above U+10FFFF are rejected, as by Python's `utf-8` codec. -/
def utf8DecodeAux : Nat → List Nat → Option Str
  | _, [] => some []
  | 0, _ :: _ => none
  | fuel + 1, b :: rest =>
    if b ≤ 127 then (utf8DecodeAux fuel rest).map (b :: ·)
    else if 194 ≤ b && b ≤ 223 then
      match rest with
      | c1 :: r2 =>
        if isCont c1 then (utf8DecodeAux fuel r2).map (((b - 192) * 64 + (c1 - 128)) :: ·)
        else none
      | [] => none
    else if 224 ≤ b && b ≤ 239 then
      match rest with
      | c1 :: c2 :: r3 =>
        if (if b == 224 then 160 ≤ c1 && c1 ≤ 191
            else if b == 237 then 128 ≤ c1 && c1 ≤ 159
            else isCont c1) && isCont c2 then
          (utf8DecodeAux fuel r3).map
            (((b - 224) * 4096 + (c1 - 128) * 64 + (c2 - 128)) :: ·)
        else none
      | _ => none
    else if 240 ≤ b && b ≤ 244 then
      match rest with
      | c1 :: c2 :: c3 :: r4 =>
        if (if b == 240 then 144 ≤ c1 && c1 ≤ 191
            else if b == 244 then 128 ≤ c1 && c1 ≤ 143
            else isCont c1) && isCont c2 && isCont c3 then
          (utf8DecodeAux fuel r4).map
            (((b - 240) * 262144 + (c1 - 128) * 4096 + (c2 - 128) * 64 + (c3 - 128)) :: ·)
        else none
      | _ => none
    else none

/-- Python's strict `utf-8` decode of a byte list, `none` on failure. -/
def utf8Decode (l : List Nat) : Option Str := utf8DecodeAux l.length l

/-- The `cp1251` decoding table for bytes `0x80`-`0xFF`; byte `0x98` is the one
undefined position and fails a strict decode. -/
def cp1251Hi (b : Nat) : Option Nat :=
  if 192 ≤ b && b ≤ 255 then some (b + 848)
  else match b with
    | 128 => some 1026 | 129 => some 1027 | 130 => some 8218 | 131 => some 1107
    | 132 => some 8222 | 133 => some 8230 | 134 => some 8224 | 135 => some 8225
    | 136 => some 8364 | 137 => some 8240 | 138 => some 1033 | 139 => some 8249
    | 140 => some 1034 | 141 => some 1036 | 142 => some 1035 | 143 => some 1039
    | 144 => some 1106 | 145 => some 8216 | 146 => some 8217 | 147 => some 8220
    | 148 => some 8221 | 149 => some 8226 | 150 => some 8211 | 151 => some 8212
    | 152 => none      | 153 => some 8482 | 154 => some 1113 | 155 => some 8250
    | 156 => some 1114 | 157 => some 1116 | 158 => some 1115 | 159 => some 1119
    | 160 => some 160  | 161 => some 1038 | 162 => some 1118 | 163 => some 1032
    | 164 => some 164  | 165 => some 1168 | 166 => some 166  | 167 => some 167
    | 168 => some 1025 | 169 => some 169  | 170 => some 1028 | 171 => some 171
    | 172 => some 172  | 173 => some 173  | 174 => some 174  | 175 => some 1031
    | 176 => some 176  | 177 => some 177  | 178 => some 1030 | 179 => some 1110
    | 180 => some 1169 | 181 => some 181  | 182 => some 182  | 183 => some 183
    | 184 => some 1105 | 185 => some 8470 | 186 => some 1108 | 187 => some 187
    | 188 => some 1112 | 189 => some 1029 | 190 => some 1109 | 191 => some 1111
    | _ => none

/-- `cp1251` decode of one byte. -/
def cp1251DecodeChar (b : Nat) : Option Nat :=
  if b ≤ 127 then some b else cp1251Hi b

/-- Python's strict `cp1251` decode of a byte list, `none` on failure. -/
def cp1251Decode : List Nat → Option Str
  | [] => some []
  | b :: rest =>
    match cp1251DecodeChar b with
    | none => none
    | some c => (cp1251Decode rest).map (c :: ·)

/-- Python's `latin-1` decode: every byte value maps to the equal code point;
this decode is total and cannot fail. -/
def latin1Decode (l : List Nat) : Str := l

/-- `FileProcessorWorker._read_file`: try `utf-8`, then `cp1251`, then
`latin-1`, returning the first successful decode.  The source's final
`return None` (the undecodable sentinel) is unreachable because the `latin-1`
attempt is total. -/
def readFileBytes (bytes : List Nat) : Option Str :=
  match utf8Decode bytes with
  | some t => some t
  | none =>
    match cp1251Decode bytes with
    | some t => some t
    | none => some (latin1Decode bytes)

/-- `_contains_ignored_word` (src/main.py lines 529-533): some ignored keyword
occurs in the lower-cased text (keywords are stored lower-cased by
`setup_parameters`). -/
def containsIgnoredWord (cfg : Config) (text : Str) : Bool :=
  cfg.ignoredWords.any (fun w => containsB eqCS w (lowerStr text))

/-- The content guard of `_process_file_content` (src/main.py line 603): with
the undecodable sentinel, or an ignored keyword in the content, or no match,
nothing is scanned or written back. -/
def contentWriteAllowed (cfg : Config) (content : Option Str) : Bool :=
  match content with
  | none => false
  | some c => !containsIgnoredWord cfg c && textMatches cfg c

/-- The content-keyword check of `_process_item_name` (src/main.py line 621):
`content is not None and self._contains_ignored_word(content)`; the sentinel is
never flagged, leaving the entry eligible for name-based renaming. -/
def itemNameContentBlocks (cfg : Config) (content : Option Str) : Bool :=
  match content with
  | none => false
  | some c => containsIgnoredWord cfg c

/-- Claim C10: `_read_file` tries `utf-8`, then `cp1251`, then the total
`latin-1` fallback, in that order, returning the first successful decode; it
never throws and, since the fallback cannot fail, never actually returns the
undecodable sentinel; the callers' guards treat the sentinel as "never scanned,
never keyword-flagged, still renameable".  The byte `0x98` is rejected by both
`utf-8` and `cp1251` and is decoded by `latin-1`. -/
theorem claim_C10_read_file_encodings :
    (∀ (bs : List Nat) (t : Str), utf8Decode bs = some t → readFileBytes bs = some t) ∧
    (∀ (bs : List Nat) (t : Str), utf8Decode bs = none → cp1251Decode bs = some t →
      readFileBytes bs = some t) ∧
    (∀ bs : List Nat, utf8Decode bs = none → cp1251Decode bs = none →
      readFileBytes bs = some (latin1Decode bs)) ∧
    (∀ bs : List Nat, ∃ t, readFileBytes bs = some t) ∧
    (∀ cfg : Config, contentWriteAllowed cfg none = false) ∧
    (∀ cfg : Config, itemNameContentBlocks cfg none = false) ∧
    utf8Decode [152] = none ∧ cp1251Decode [152] = none ∧
    readFileBytes [152] = some [152] ∧
    utf8Decode [200] = none ∧ readFileBytes [200] = some [1048] := by
  refine ⟨?_, ?_, ?_, ?_, fun _ => rfl, fun _ => rfl,
    by decide, by decide, by decide, by decide, by decide⟩
  · intro bs t h
    unfold readFileBytes
    rw [h]
  · intro bs t h1 h2
    unfold readFileBytes
    rw [h1, h2]
  · intro bs h1 h2
    unfold readFileBytes
    rw [h1, h2]
  · intro bs
    unfold readFileBytes
    cases hu : utf8Decode bs with
    | some t => exact ⟨t, rfl⟩
    | none =>
      cases hc : cp1251Decode bs with
      | some t => exact ⟨t, rfl⟩
      | none => exact ⟨latin1Decode bs, rfl⟩

/-- Witness for C10: the ordering facts applied at the concrete byte string
`[0xD0, 0x9F]` (valid UTF-8 for "П"), which must win over the other decodings. -/
theorem claim_C10_read_file_encodings_witness :
    utf8Decode [208, 159] = some [1055] ∧ readFileBytes [208, 159] = some [1055] :=
  ⟨by decide, claim_C10_read_file_encodings.1 [208, 159] [1055] (by decide)⟩

/-! ### The filesystem model

A directory tree: file contents are stored as decoded text (see the header
note), and children are kept in `iterdir` order.  Engine functions address
entries by their component path relative to the working folder; the
corresponding path string (used by the ignore predicates and the log/record
payloads, exactly as the source manipulates strings) is recovered with
`fullPath`. -/

inductive FSTree where
  | file (name : Str) (content : Str)
  | dir (name : Str) (children : List FSTree)

/-- The entry's own name. -/
def FSTree.name : FSTree → Str
  | .file n _ => n
  | .dir n _ => n

/-- First child with the given name (`os` path resolution). -/
def findChild (cs : List FSTree) (n : Str) : Option FSTree :=
  cs.find? (fun t => t.name == n)

/-- Resolve a component path in a list of root children. -/
def lookupFS : List FSTree → List Str → Option FSTree
  | _, [] => none
  | cs, [n] => findChild cs n
  | cs, n :: rest =>
    match findChild cs n with
    | some (.dir _ cs2) => lookupFS cs2 rest
    | _ => none

/-- `os.path.exists` on a component path. -/
def existsFS (cs : List FSTree) (p : List Str) : Bool := (lookupFS cs p).isSome

/-- `os.path.isfile` on a component path. -/
def isFileFS (cs : List FSTree) (p : List Str) : Bool :=
  match lookupFS cs p with
  | some (.file _ _) => true
  | _ => false

/-- `os.path.isdir` on a component path. -/
def isDirFS (cs : List FSTree) (p : List Str) : Bool :=
  match lookupFS cs p with
  | some (.dir _ _) => true
  | _ => false

/-- The decoded content of the file at a component path (`_read_file`; the
sentinel case cannot occur, see `claim_C10_read_file_encodings`). -/
def readFS (cs : List FSTree) (p : List Str) : Option Str :=
  match lookupFS cs p with
  | some (.file _ c) => some c
  | _ => none

/-- Children of the directory at a component path (`[]` addresses the working
folder itself); an absent or file path has no children, like `os.listdir`
failing. -/
def childrenIn (cs : List FSTree) (p : List Str) : List FSTree :=
  match p with
  | [] => cs
  | _ =>
    match lookupFS cs p with
    | some (.dir _ cs2) => cs2
    | _ => []

/-- Names existing in the directory at a component path. -/
def namesInFS (cs : List FSTree) (p : List Str) : List Str :=
  (childrenIn cs p).map FSTree.name

/-- Apply `f` to the first child named `n`. -/
def updChild (n : Str) (f : FSTree → FSTree) : List FSTree → List FSTree
  | [] => []
  | t :: ts => if t.name == n then f t :: ts else t :: updChild n f ts

/-- Apply `f` to the entry at a component path. -/
def updateFS : List FSTree → List Str → (FSTree → FSTree) → List FSTree
  | cs, [], _ => cs
  | cs, [n], f => updChild n f cs
  | cs, n :: rest, f =>
    updChild n (fun t => match t with
      | .dir m cs2 => .dir m (updateFS cs2 rest f)
      | other => other) cs

/-- `os.rename` within the same directory: change the entry's name in place. -/
def renameFS (cs : List FSTree) (p : List Str) (newName : Str) : List FSTree :=
  updateFS cs p (fun t => match t with
    | .file _ c => .file newName c
    | .dir _ cs2 => .dir newName cs2)

/-- Overwrite the content of the file at a component path. -/
def writeFS (cs : List FSTree) (p : List Str) (newC : Str) : List FSTree :=
  updateFS cs p (fun t => match t with
    | .file n _ => .file n newC
    | d => d)

/-- Create a new entry as the last child of the directory at `parent`. -/
def createFS (cs : List FSTree) (parent : List Str) (t : FSTree) : List FSTree :=
  match parent with
  | [] => cs ++ [t]
  | _ => updateFS cs parent (fun node => match node with
    | .dir m cs2 => .dir m (cs2 ++ [t])
    | other => other)

/-- `os.path.join` of a directory path string and one name. -/
def joinPath (base : Str) (n : Str) : Str := base ++ [47] ++ n

/-- The path string of a component path under the working folder. -/
def fullPath (cfg : Config) (rel : List Str) : Str :=
  rel.foldl joinPath cfg.folderPath

/-- `os.path.basename` of an item path (its last component; names contain no
separator). -/
def baseName (rel : List Str) : Str := rel.getLastD []

/-- `_should_ignore_path` (src/main.py lines 554-559); `os.path.normpath` is
modelled as the identity, configured ignored paths being assumed normalized. -/
def shouldIgnorePath (cfg : Config) (itemPath : Str) : Bool :=
  cfg.ignoredPaths.any (fun ip => ceqPre eqCS (ip ++ [47]) itemPath || itemPath == ip)

/-- The built-in binary/media/archive/executable/document extension set
(src/main.py lines 536-544). -/
def binaryExtensions : List Str :=
  [strLit ".png", strLit ".jpg", strLit ".jpeg", strLit ".gif", strLit ".bmp",
   strLit ".tiff", strLit ".tif", strLit ".webp", strLit ".ico", strLit ".svg",
   strLit ".mp4", strLit ".avi", strLit ".mkv", strLit ".mov", strLit ".wmv",
   strLit ".flv", strLit ".webm", strLit ".m4v",
   strLit ".mp3", strLit ".wav", strLit ".flac", strLit ".aac", strLit ".ogg",
   strLit ".wma", strLit ".m4a",
   strLit ".zip", strLit ".rar", strLit ".7z", strLit ".tar", strLit ".gz", strLit ".bz2",
   strLit ".exe", strLit ".dll", strLit ".so", strLit ".dylib", strLit ".bin",
   strLit ".pdf", strLit ".doc", strLit ".docx", strLit ".xls", strLit ".xlsx",
   strLit ".ppt", strLit ".pptx",
   strLit ".db", strLit ".sqlite", strLit ".dat", strLit ".cache"]

/-- `_should_ignore_file` (src/main.py lines 535-546): the extension is in the
built-in binary set (content-only exemption). -/
def shouldIgnoreFile (path : Str) : Bool :=
  binaryExtensions.any (fun e => lowerStr (splitExt path).2 == e)

/-- `_should_completely_ignore_file` (src/main.py lines 548-552): the extension
is in the user's ignored-extensions set (full exemption). -/
def shouldCompletelyIgnoreFile (cfg : Config) (path : Str) : Bool :=
  cfg.ignoredExtensions.any (fun e => lowerStr (splitExt path).2 == e)

/-- `str.split('\n')`. -/
def splitLines : Str → List Str
  | [] => [[]]
  | c :: rest =>
    match splitLines rest with
    | [] => [[]]
    | l :: ls => if c == 10 then [] :: l :: ls else (c :: l) :: ls

/-- Python `str.isspace` characters (the ones visible to `str.strip`),
restricted to the code points the model's texts use. -/
def isSpaceChar (c : Nat) : Bool :=
  c == 32 || c == 9 || c == 10 || c == 11 || c == 12 || c == 13 ||
  c == 28 || c == 29 || c == 30 || c == 31 || c == 133 || c == 160

/-- `str.strip()`. -/
def stripWS (s : Str) : Str :=
  ((s.dropWhile isSpaceChar).reverse.dropWhile isSpaceChar).reverse

/-- The per-line diff triples of `_check_file_content` (src/main.py lines
577-586): 1-based line number, stripped line, stripped replaced line. -/
def contentMatchList (cfg : Config) (content : Str) : List (Nat × Str × Str) :=
  (List.enumFrom 1 (splitLines content)).filterMap fun p =>
    if textMatches cfg p.2 then
      some (p.1, stripWS p.2, stripWS (replaceTextInString cfg p.2))
    else none

/-- `_check_file_content` (src/main.py lines 571-586) on an item path string and
its (already read) content. -/
def checkFileContentPath (cfg : Config) (path : Str) (content : Option Str) :
    List (Nat × Str × Str) :=
  if shouldIgnorePath cfg path || shouldCompletelyIgnoreFile cfg path ||
      shouldIgnoreFile path then []
  else
    match content with
    | none => []
    | some c =>
      if containsIgnoredWord cfg c then []
      else contentMatchList cfg c

/-- Non-overlapping occurrence count for a plain pattern (`re.findall` length,
src/main.py line 608, non-whole-word case). -/
def countSubAux (ceq : Nat → Nat → Bool) (pat : Str) : Nat → Str → Nat
  | _, [] => 0
  | 0, _ => 0
  | fuel + 1, c :: rest =>
    if ceqPre ceq pat (c :: rest) then
      1 + countSubAux ceq pat fuel (rest.drop (pat.length - 1))
    else countSubAux ceq pat fuel rest

/-- Non-overlapping occurrence count for `\b pat \b` (src/main.py line 608,
whole-word case). -/
def countWWAux (ceq : Nat → Nat → Bool) (pat : Str) : Nat → Bool → Str → Nat
  | _, _, [] => 0
  | 0, _, _ => 0
  | fuel + 1, prevW, c :: rest =>
    if wwHit ceq pat prevW (c :: rest) then
      1 + countWWAux ceq pat fuel (lastW prevW ((c :: rest).take pat.length))
        (rest.drop (pat.length - 1))
    else countWWAux ceq pat fuel (isWordChar c) rest

/-- The replacement count logged by `_process_file_content` (lines 606-608). -/
def countOccurrences (cfg : Config) (content : Str) : Nat :=
  if cfg.wholeWords then countWWAux (ceqOf cfg) cfg.findText content.length false content
  else countSubAux (ceqOf cfg) cfg.findText content.length content

/-- Lexicographic order on code-point strings (Python `<` on `str`). -/
def lexLe : Str → Str → Bool
  | [], _ => true
  | _ :: _, [] => false
  | a :: as, b :: bs => if a < b then true else if b < a then false else lexLe as bs

/-- Insert into a lexicographically sorted list. -/
def insertSorted (x : Str) : List Str → List Str
  | [] => [x]
  | y :: ys => if lexLe x y then x :: y :: ys else y :: insertSorted x ys

/-- `sorted(...)` on a list of names. -/
def sortStrs (l : List Str) : List Str := l.foldr insertSorted []

/-! ### Discovery (`_get_all_items`, src/main.py lines 488-501) -/

mutual

/-- The `rglob('*')` items of one entry, as component paths that start with the
entry's own name: nothing for a file; for a directory, its children first and
then, directory by directory in pre-order, the deeper entries - the order
`pathlib`'s recursive wildcard produces. -/
def nodeItems : FSTree → List (List Str)
  | .file _ _ => []
  | .dir n cs => ((cs.map fun c => [c.name]) ++ nodeItemsKids cs).map (n :: ·)

/-- `rglob` items of a list of sibling entries, in sibling order. -/
def nodeItemsKids : List FSTree → List (List Str)
  | [] => []
  | c :: cs => nodeItems c ++ nodeItemsKids cs

end

/-- `_get_all_items`: all top-level entries in `iterdir` order, then (when
recursing into subfolders) the `rglob('*')` items of each top-level directory. -/
def getAllItems (cfg : Config) (fs : List FSTree) : List (List Str) :=
  (fs.map fun c => [c.name]) ++ (if cfg.includeSubfolders then nodeItemsKids fs else [])

/-! ### Records, events and run state -/

/-- Processing mode (`self.mode`): `replace` is the spec's InPlace, `copy1` its
SiblingCopy, `copy2` its TreeCopy. -/
inductive Mode where
  | replace
  | copy1
  | copy2
deriving DecidableEq

/-- A preview `MatchRecord`, mirroring the dictionaries appended to
`temp_matches` (`type` field became the constructor). -/
inductive MRec where
  | nameChange (path : Str) (oldName newName : Str) (isFile : Bool)
  | contentChange (path : Str) (diffs : List (Nat × Str × Str)) (isFile : Bool)
  | created (path : Str) (isFile : Bool)
  | createdRename (path : Str) (oldName newName : Str) (isFile : Bool)
  | createdContent (path : Str) (oldName newName : Str)
deriving DecidableEq

/-- A structured model of the engine's per-entry emissions in a real run: the
`log_message` lines that report actions or skips, plus the per-entry
progress/status emissions (`visited…`). -/
inductive Ev where
  | visitedFile (rel : List Str)
  | visitedRename (rel : List Str)
  | visitedCopy (rel : List Str)
  | wrote (rel : List Str) (count : Nat)
  | renamed (rel : List Str) (newName : Str)
  | renameExists (target : List Str)
  | renameError (rel : List Str)
  | copyError (rel : List Str)
  | copiedFile (target : List Str) (srcName : Str) (ren : Bool) (contentChanged : Bool)
  | copiedDir (target : List Str) (srcName : Str) (ren : Bool)
  | copyTargetExists (target : List Str)
  | copiedForContent (target : List Str) (srcName : Str) (contentChanged : Bool)
  | alreadyExists (target : List Str)
deriving DecidableEq

/-- State of a real (mutating) run: the tree, the emitted events, and the
cooperative cancellation flag modelled as "the stop request becomes visible
once `ticks` reaches `stopAt`" (the flag is set once, externally, at an
arbitrary point of the run). -/
structure RSt where
  fs : List FSTree
  log : List Ev
  ticks : Nat
  stopAt : Option Nat

/-- `self._stop_requested` as observed by the run. -/
def RSt.stopReq (st : RSt) : Bool :=
  match st.stopAt with
  | some k => k ≤ st.ticks
  | none => false

/-- One per-entry boundary passed (progress/status emission point). -/
def RSt.tick (st : RSt) : RSt := { st with ticks := st.ticks + 1 }

/-- Append a log event. -/
def RSt.emit (st : RSt) (e : Ev) : RSt := { st with log := st.log ++ [e] }

/-- State of a preview run: same shape, but it accumulates `MatchRecord`s. -/
structure PSt where
  fs : List FSTree
  recs : List MRec
  ticks : Nat
  stopAt : Option Nat

/-- `self._stop_requested` as observed by the preview. -/
def PSt.stopReq (st : PSt) : Bool :=
  match st.stopAt with
  | some k => k ≤ st.ticks
  | none => false

/-- One per-entry boundary passed in the preview. -/
def PSt.tickP (st : PSt) : PSt := { st with ticks := st.ticks + 1 }

/-- Append a `MatchRecord`. -/
def PSt.emitR (st : PSt) (r : MRec) : PSt := { st with recs := st.recs ++ [r] }

/-! ### InPlace (`replace`) mode, real run -/

/-- `_process_file_content` (src/main.py lines 588-612).  The dead retry block
(lines 593-602) re-attempts the same decode and is absorbed into the single
read; a missing file makes the read raise, which the callers catch, so it is a
no-op here. -/
def processFileContent (cfg : Config) (st : RSt) (rel : List Str) : RSt × Bool :=
  let path := fullPath cfg rel
  if shouldIgnorePath cfg path || shouldCompletelyIgnoreFile cfg path ||
      shouldIgnoreFile path then (st, false)
  else
    match readFS st.fs rel with
    | none => (st, false)
    | some content =>
      if containsIgnoredWord cfg content || !textMatches cfg content then (st, false)
      else
        ({ st with fs := writeFS st.fs rel (replaceTextInString cfg content),
                   log := st.log ++ [.wrote rel (countOccurrences cfg content)] }, true)

/-- `_process_item_name` (src/main.py lines 614-639).  A read failure in the
content check is swallowed (`except: pass`); `os.rename` on a vanished source
raises and is logged by the outer handler (`renameError`). -/
def processItemName (cfg : Config) (st : RSt) (rel : List Str) : RSt × Bool :=
  let path := fullPath cfg rel
  if shouldIgnorePath cfg path ||
      (isFileFS st.fs rel && shouldCompletelyIgnoreFile cfg path) then (st, false)
  else if isFileFS st.fs rel && !shouldIgnoreFile path &&
      itemNameContentBlocks cfg (readFS st.fs rel) then (st, false)
  else
    let nm := baseName rel
    if !textMatches cfg nm then (st, false)
    else
      let newName := replaceTextInString cfg nm
      let target := rel.dropLast ++ [newName]
      if existsFS st.fs target then (st.emit (.renameExists target), false)
      else if !existsFS st.fs rel then (st.emit (.renameError rel), false)
      else ({ st with fs := renameFS st.fs rel newName,
                      log := st.log ++ [.renamed rel newName] }, true)

/-- One iteration of the content pass of `_run_replacement` (lines 305-313). -/
def phase1Step (cfg : Config) (st : RSt) (rel : List Str) : RSt :=
  if st.stopReq then st
  else
    let st := (st.tick).emit (.visitedFile rel)
    if containsIgnoredWord cfg (baseName rel) then st
    else (processFileContent cfg st rel).1

/-- One iteration of the rename pass of `_run_replacement` (lines 314-323). -/
def phase2Step (cfg : Config) (st : RSt) (rel : List Str) : RSt :=
  if st.stopReq then st
  else
    let st := (st.tick).emit (.visitedRename rel)
    if containsIgnoredWord cfg (baseName rel) then st
    else (processItemName cfg st rel).1

/-- `_run_replacement` (src/main.py lines 298-329): discover once, filter by the
full-path keyword test, rewrite contents of the files in discovery order, then
rename along the reversed filtered list. -/
def runReplacement (cfg : Config) (st0 : RSt) : RSt :=
  let allItems := getAllItems cfg st0.fs
  let filteredItems := allItems.filter (fun r => !containsIgnoredWord cfg (fullPath cfg r))
  let files := filteredItems.filter (fun r => isFileFS st0.fs r)
  let st1 := files.foldl (phase1Step cfg) st0
  (filteredItems.reverse).foldl (phase2Step cfg) st1

/-! ### The preview simulator (`_run_preview`, src/main.py lines 82-165) -/

mutual

/-- Number of nodes of a tree (an executable recursion-depth bound). -/
def treeSize : FSTree → Nat
  | .file _ _ => 1
  | .dir _ cs => 1 + treeSizeKids cs

/-- Number of nodes of a forest. -/
def treeSizeKids : List FSTree → Nat
  | [] => 0
  | c :: cs => treeSize c + treeSizeKids cs

end

/-- `_simulate_copy_with_replace` (src/main.py lines 180-220): non-mutating
walk of a source subtree, recording the copy that a SiblingCopy run would
create under `targetParent`.  `fuel` bounds the recursion depth (any value
at least the subtree depth behaves like the source's unbounded recursion). -/
def simulateCopyWithReplace (cfg : Config) :
    Nat → FSTree → Str → Str → PSt → PSt
  | 0, _, _, _, st => st
  | fuel + 1, src, srcPath, targetParent, st =>
    let srcName := src.name
    if containsIgnoredWord cfg srcName then st
    else
      match src with
      | .file _ content =>
        if shouldIgnoreFile srcPath || shouldCompletelyIgnoreFile cfg srcPath then st
        else if containsIgnoredWord cfg content then st
        else
          let ren := textMatches cfg srcName
          let newName := if ren then replaceTextInString cfg srcName else srcName
          let target := joinPath targetParent newName
          let st := if ren then st.emitR (.createdRename target srcName newName true)
            else st.emitR (.created target true)
          if !content.isEmpty && textMatches cfg content then
            let ms := checkFileContentPath cfg srcPath (some content)
            if ms.isEmpty then st else st.emitR (.contentChange target ms true)
          else st
      | .dir _ cs =>
        let ren := textMatches cfg srcName
        let newName := if ren then replaceTextInString cfg srcName else srcName
        let target := joinPath targetParent newName
        let st := if ren then st.emitR (.createdRename target srcName newName false)
          else st.emitR (.created target false)
        (sortStrs (cs.map FSTree.name)).foldl (fun st nm =>
          match findChild cs nm with
          | some child => simulateCopyWithReplace cfg fuel child (joinPath srcPath nm) target st
          | none => st) st

/-- `_simulate_process_dir` (src/main.py lines 222-296): the four TreeCopy
passes, reading only; `pathRel` is where the pass pretends to write, `srcRel`
where it actually reads. -/
def simulateProcessDir (cfg : Config) : Nat → List Str → List Str → PSt → PSt
  | 0, _, _, st => st
  | fuel + 1, pathRel, srcRel, st =>
    if st.stopReq then st
    else
      let items := sortStrs (namesInFS st.fs srcRel)
      let st := items.foldl (fun st item =>
        let srcItem := srcRel ++ [item]
        let srcItemPath := fullPath cfg srcItem
        if shouldIgnorePath cfg srcItemPath || containsIgnoredWord cfg srcItemPath ||
            containsIgnoredWord cfg item then st
        else if !textMatches cfg item then st
        else
          let newName := replaceTextInString cfg item
          let newPath := fullPath cfg (pathRel ++ [newName])
          if isFileFS st.fs srcItem then
            if shouldIgnoreFile srcItemPath || shouldCompletelyIgnoreFile cfg srcItemPath then st
            else
              match readFS st.fs srcItem with
              | none => st
              | some content =>
                if containsIgnoredWord cfg content then st
                else
                  let st := st.emitR (.createdRename newPath item newName true)
                  let ms := checkFileContentPath cfg srcItemPath (some content)
                  if ms.isEmpty then st else st.emitR (.contentChange newPath ms true)
          else st.emitR (.createdRename newPath item newName false)) st
      let st := items.foldl (fun st item =>
        let srcItem := srcRel ++ [item]
        let srcItemPath := fullPath cfg srcItem
        if isFileFS st.fs srcItem && !textMatches cfg item then
          if shouldIgnorePath cfg srcItemPath || containsIgnoredWord cfg srcItemPath ||
              containsIgnoredWord cfg item then st
          else if shouldIgnoreFile srcItemPath || shouldCompletelyIgnoreFile cfg srcItemPath then st
          else
            match readFS st.fs srcItem with
            | none => st
            | some content =>
              if containsIgnoredWord cfg content || !textMatches cfg content then st
              else
                let newName := getUniqueName (namesInFS st.fs pathRel) item
                let newPath := fullPath cfg (pathRel ++ [newName])
                let st := st.emitR (.createdContent newPath item newName)
                let ms := checkFileContentPath cfg srcItemPath (some content)
                if ms.isEmpty then st else st.emitR (.contentChange newPath ms true)
        else st) st
      let st := items.foldl (fun st item =>
        if isDirFS st.fs (srcRel ++ [item]) then
          simulateProcessDir cfg fuel (pathRel ++ [item]) (srcRel ++ [item]) st
        else st) st
      items.foldl (fun st item =>
        if textMatches cfg item && isDirFS st.fs (srcRel ++ [item]) then
          simulateProcessDir cfg fuel (pathRel ++ [replaceTextInString cfg item])
            (srcRel ++ [item]) st
        else st) st

/-- One iteration of the main preview loop (src/main.py lines 92-127);
`fuel` only feeds `simulateCopyWithReplace` in `copy1` mode. -/
def previewStep (cfg : Config) (mode : Mode) (fuel : Nat) (st : PSt) (rel : List Str) : PSt :=
  if st.stopReq then st
  else
    let st := st.tickP
    let itemPath := fullPath cfg rel
    if shouldIgnorePath cfg itemPath then st
    else
      let nm := baseName rel
      if containsIgnoredWord cfg nm then st
      else
        let isF := isFileFS st.fs rel
        if isF && shouldCompletelyIgnoreFile cfg itemPath then st
        else
          match mode with
          | .replace =>
            let st := if textMatches cfg nm then
                st.emitR (.nameChange itemPath nm (replaceTextInString cfg nm) isF)
              else st
            if isF && !shouldIgnoreFile itemPath then
              let ms := checkFileContentPath cfg itemPath (readFS st.fs rel)
              if ms.isEmpty then st else st.emitR (.contentChange itemPath ms true)
            else st
          | .copy1 =>
            if rel.length == 1 && textMatches cfg nm then
              match lookupFS st.fs rel with
              | some t => simulateCopyWithReplace cfg fuel t itemPath cfg.folderPath st
              | none => st
            else st
          | .copy2 => st

/-- One iteration of the trailing top-level content-duplicate loop of
`_run_preview` (src/main.py lines 128-159), which runs for both `replace` and
`copy1` previews. -/
def previewContentDupStep (cfg : Config) (st : PSt) (rel : List Str) : PSt :=
  if st.stopReq then st
  else if rel.length != 1 then st
  else if !isFileFS st.fs rel then st
  else
    let nm := baseName rel
    if textMatches cfg nm then st
    else
      let itemPath := fullPath cfg rel
      if shouldIgnorePath cfg itemPath || containsIgnoredWord cfg nm ||
          shouldIgnoreFile itemPath || shouldCompletelyIgnoreFile cfg itemPath then st
      else
        match readFS st.fs rel with
        | none => st
        | some content =>
          if containsIgnoredWord cfg content || !textMatches cfg content then st
          else
            let newName := getUniqueName (namesInFS st.fs []) nm
            let target := fullPath cfg [newName]
            let st := st.emitR (.createdContent target nm newName)
            let ms := checkFileContentPath cfg itemPath (some content)
            if ms.isEmpty then st else st.emitR (.contentChange target ms true)

/-- `_run_preview` (src/main.py lines 82-165). -/
def runPreview (cfg : Config) (mode : Mode) (st0 : PSt) : PSt :=
  match mode with
  | .copy2 => simulateProcessDir cfg (treeSizeKids st0.fs + 1) [] [] st0
  | _ =>
    let allItems := getAllItems cfg st0.fs
    let st := allItems.foldl (previewStep cfg mode (treeSizeKids st0.fs + 1)) st0
    allItems.foldl (previewContentDupStep cfg) st

/-! ### SiblingCopy (`copy1`) mode, real run -/

/-- `_process_copy_with_replace` (src/main.py lines 372-416): copy one source
entry (file or whole directory, recursively) under `targetParentRel`,
renaming name-matching nodes, rewriting contents of copied files, skipping a
rename whose target exists and uniquifying a non-renamed collision. -/
def processCopyWithReplace (cfg : Config) :
    Nat → List Str → List Str → RSt → RSt × Bool
  | 0, _, _, st => (st, false)
  | fuel + 1, srcRel, targetParentRel, st =>
    if st.stopReq then (st, false)
    else
      let srcName := baseName srcRel
      if containsIgnoredWord cfg srcName then (st, false)
      else
        let ren := textMatches cfg srcName
        let newName0 := if ren then replaceTextInString cfg srcName else srcName
        let target0 := targetParentRel ++ [newName0]
        if existsFS st.fs target0 && ren then
          (st.emit (.copyTargetExists target0), false)
        else
          let newName := if existsFS st.fs target0 then
              getUniqueName (namesInFS st.fs targetParentRel) srcName
            else newName0
          let target := targetParentRel ++ [newName]
          match lookupFS st.fs srcRel with
          | some (.file _ content) =>
            let srcPath := fullPath cfg srcRel
            if shouldIgnoreFile srcPath || shouldCompletelyIgnoreFile cfg srcPath then
              (st, false)
            else if containsIgnoredWord cfg content then (st, false)
            else
              let st := { st with fs := createFS st.fs targetParentRel (.file newName content) }
              let pr := processFileContent cfg st target
              ((pr.1.emit (.copiedFile target srcName ren pr.2)), true)
          | some (.dir _ cs) =>
            let st := { st with fs := createFS st.fs targetParentRel (.dir newName []) }
            let st := (cs.map FSTree.name).foldl (fun st child =>
              (processCopyWithReplace cfg fuel (srcRel ++ [child]) target st).1) st
            ((st.emit (.copiedDir target srcName ren)), true)
          | none => (st.emit (.copyError srcRel), false)

/-- One iteration of the first `_run_copy1` loop (src/main.py lines 337-346). -/
def copy1Step (cfg : Config) (fuel : Nat) (st : RSt) (rel : List Str) : RSt :=
  if st.stopReq then st
  else
    let st := (st.tick).emit (.visitedCopy rel)
    if !textMatches cfg (baseName rel) then st
    else (processCopyWithReplace cfg fuel rel [] st).1

/-- One iteration of the second `_run_copy1` loop (src/main.py lines 348-364):
top-level files whose content (but not name) matches are duplicated under a
unique name and the duplicate's content is rewritten. -/
def copy1ContentStep (cfg : Config) (st : RSt) (rel : List Str) : RSt :=
  if st.stopReq then st
  else
    let nm := baseName rel
    if textMatches cfg nm then st
    else
      let p := fullPath cfg rel
      if containsIgnoredWord cfg nm || shouldIgnorePath cfg p || shouldIgnoreFile p ||
          shouldCompletelyIgnoreFile cfg p then st
      else
        match readFS st.fs rel with
        | none => st
        | some content =>
          if containsIgnoredWord cfg content || !textMatches cfg content then st
          else
            let newName := getUniqueName (namesInFS st.fs []) nm
            let target := [newName]
            let st := { st with fs := createFS st.fs [] (.file newName content) }
            let pr := processFileContent cfg st target
            if pr.2 then pr.1.emit (.copiedForContent target nm true) else pr.1

/-- `_run_copy1` (src/main.py lines 331-370). -/
def runCopy1 (cfg : Config) (st0 : RSt) : RSt :=
  let top := st0.fs.map (fun t => [t.name])
  let filtered := top.filter (fun r =>
    !containsIgnoredWord cfg (fullPath cfg r) && !shouldIgnorePath cfg (fullPath cfg r))
  let st1 := filtered.foldl (copy1Step cfg (treeSizeKids st0.fs + 1)) st0
  let files := top.filter (fun r => isFileFS st1.fs r)
  files.foldl (copy1ContentStep cfg) st1

/-! ### TreeCopy (`copy2`) mode, real run -/

/-- `_process_dir` (src/main.py lines 429-486): the four passes at one
directory level.  Pass 1 renames-and-duplicates name-matching children
(collecting the created directory copies), pass 2 duplicates content-only
matching files under unique names, pass 3 recurses into the original
subdirectories, pass 4 recurses into the created renamed directory copies. -/
def processDir (cfg : Config) : Nat → List Str → RSt → RSt
  | 0, _, st => st
  | fuel + 1, dirRel, st =>
    if st.stopReq then st
    else
      let items := sortStrs (namesInFS st.fs dirRel)
      let stc := items.foldl (fun (acc : RSt × List (List Str)) item =>
        let st := acc.1
        let srcRel := dirRel ++ [item]
        let srcPath := fullPath cfg srcRel
        if shouldIgnorePath cfg srcPath || containsIgnoredWord cfg srcPath ||
            containsIgnoredWord cfg item then acc
        else if !textMatches cfg item then acc
        else
          let newName := replaceTextInString cfg item
          let newRel := dirRel ++ [newName]
          if existsFS st.fs newRel then (st.emit (.alreadyExists newRel), acc.2)
          else
            match lookupFS st.fs srcRel with
            | some (.file _ content) =>
              if shouldIgnoreFile srcPath || shouldCompletelyIgnoreFile cfg srcPath then acc
              else if containsIgnoredWord cfg content then acc
              else
                let st := { st with fs := createFS st.fs dirRel (.file newName content) }
                let pr := processFileContent cfg st newRel
                (pr.1.emit (.copiedFile newRel item true pr.2), acc.2)
            | some (.dir _ cs) =>
              let st := { st with fs := createFS st.fs dirRel (.dir newName cs) }
              (st.emit (.copiedDir newRel item true), acc.2 ++ [newRel])
            | none => acc) (st, [])
      let st := items.foldl (fun st item =>
        let srcRel := dirRel ++ [item]
        let srcPath := fullPath cfg srcRel
        if isFileFS st.fs srcRel && !textMatches cfg item then
          if shouldIgnorePath cfg srcPath || containsIgnoredWord cfg srcPath ||
              containsIgnoredWord cfg item then st
          else if shouldIgnoreFile srcPath || shouldCompletelyIgnoreFile cfg srcPath then st
          else
            match readFS st.fs srcRel with
            | none => st
            | some content =>
              if containsIgnoredWord cfg content || !textMatches cfg content then st
              else
                let newName := getUniqueName (namesInFS st.fs dirRel) item
                let newRel := dirRel ++ [newName]
                let st := { st with fs := createFS st.fs dirRel (.file newName content) }
                let pr := processFileContent cfg st newRel
                pr.1.emit (.copiedForContent newRel item pr.2)
        else st) stc.1
      let st := items.foldl (fun st item =>
        if isDirFS st.fs (dirRel ++ [item]) then processDir cfg fuel (dirRel ++ [item]) st
        else st) st
      stc.2.foldl (fun st newRel => processDir cfg fuel newRel st) st

/-- `_run_copy2` (src/main.py lines 418-427). -/
def runCopy2 (cfg : Config) (st0 : RSt) : RSt :=
  processDir cfg (treeSizeKids st0.fs + 1) [] st0

/-- The mode dispatch of `run` (src/main.py lines 67-80) for real runs. -/
def runReal (cfg : Config) (mode : Mode) (st0 : RSt) : RSt :=
  match mode with
  | .replace => runReplacement cfg st0
  | .copy1 => runCopy1 cfg st0
  | .copy2 => runCopy2 cfg st0

/-! ### Claim C2: previews never mutate the tree -/

@[simp] theorem PSt.emitR_fs (st : PSt) (r : MRec) : (st.emitR r).fs = st.fs := rfl

@[simp] theorem PSt.tickP_fs (st : PSt) : st.tickP.fs = st.fs := rfl

theorem foldl_preserve {α β : Type} (f : β → α → β) (P : β → Prop)
    (h : ∀ st x, P st → P (f st x)) :
    ∀ (l : List α) (st : β), P st → P (l.foldl f st) := by
  intro l
  induction l with
  | nil => intro st hst; exact hst
  | cons x xs ih => intro st hst; exact ih _ (h st x hst)

theorem simulateCopyWithReplace_fs (cfg : Config) :
    ∀ (fuel : Nat) (src : FSTree) (sp tp : Str) (st : PSt),
      (simulateCopyWithReplace cfg fuel src sp tp st).fs = st.fs := by
  intro fuel
  induction fuel with
  | zero => intro src sp tp st; rfl
  | succ f ih =>
    intro src sp tp st
    cases src with
    | file n c =>
      simp only [simulateCopyWithReplace]
      split
      · rfl
      · split
        · rfl
        · split
          · rfl
          · simp [apply_ite PSt.fs, PSt.emitR]
    | dir n cs =>
      simp only [simulateCopyWithReplace]
      split
      · rfl
      · refine foldl_preserve _ (fun s : PSt => s.fs = st.fs) ?_ _ _
          (by simp [apply_ite PSt.fs, PSt.emitR])
        intro s nm hs
        cases hf : findChild cs nm with
        | some child => rw [ih child (joinPath sp nm) _ s]; exact hs
        | none => exact hs

theorem simulateProcessDir_fs (cfg : Config) :
    ∀ (fuel : Nat) (pathRel srcRel : List Str) (st : PSt),
      (simulateProcessDir cfg fuel pathRel srcRel st).fs = st.fs := by
  intro fuel
  induction fuel with
  | zero => intro p s st; rfl
  | succ f ih =>
    intro pathRel srcRel st
    simp only [simulateProcessDir]
    split
    · rfl
    · refine foldl_preserve _ (fun s : PSt => s.fs = st.fs) ?_ _ _
        (foldl_preserve _ (fun s : PSt => s.fs = st.fs) ?_ _ _
          (foldl_preserve _ (fun s : PSt => s.fs = st.fs) ?_ _ _
            (foldl_preserve _ (fun s : PSt => s.fs = st.fs) ?_ _ _ rfl)))
      · intro s item hs
        split
        · rw [ih]; exact hs
        · exact hs
      · intro s item hs
        split
        · rw [ih]; exact hs
        · exact hs
      · intro s item hs
        split
        · split
          · exact hs
          · split
            · exact hs
            · split
              · exact hs
              · split
                · exact hs
                · simp [apply_ite PSt.fs, PSt.emitR, hs]
        · exact hs
      · intro s item hs
        split
        · exact hs
        · split
          · exact hs
          · split
            · split
              · exact hs
              · split
                · exact hs
                · split
                  · exact hs
                  · simp [apply_ite PSt.fs, PSt.emitR, hs]
            · simp [PSt.emitR, hs]

theorem previewStep_fs (cfg : Config) (mode : Mode) (fuel : Nat) (st : PSt)
    (rel : List Str) : (previewStep cfg mode fuel st rel).fs = st.fs := by
  cases mode with
  | replace => simp [previewStep, apply_ite PSt.fs, PSt.emitR, PSt.tickP]
  | copy2 => simp [previewStep, apply_ite PSt.fs, PSt.tickP]
  | copy1 =>
    simp only [previewStep]
    split
    · rfl
    · split
      · rfl
      · split
        · rfl
        · split
          · rfl
          · split
            · split
              · rw [simulateCopyWithReplace_fs]
                rfl
              · rfl
            · rfl

theorem previewContentDupStep_fs (cfg : Config) (st : PSt) (rel : List Str) :
    (previewContentDupStep cfg st rel).fs = st.fs := by
  unfold previewContentDupStep
  split
  · rfl
  · split
    · rfl
    · split
      · rfl
      · split
        · simp [apply_ite PSt.fs]
        · split
          · simp [apply_ite PSt.fs]
          · simp [apply_ite PSt.fs, PSt.emitR]

/-- Claim C2: a preview run in any mode - completed, cancelled at any point
(`stopAt` arbitrary), or truncated - leaves every file content, every name and
the whole set of filesystem entries exactly as they were: the final tree equals
the initial tree. -/
theorem claim_C2_preview_never_mutates (cfg : Config) (mode : Mode) (st : PSt) :
    (runPreview cfg mode st).fs = st.fs := by
  unfold runPreview
  cases mode
  · exact foldl_preserve _ (fun s : PSt => s.fs = st.fs)
      (fun s x hs => by
        show (previewContentDupStep cfg s x).fs = st.fs
        rw [previewContentDupStep_fs]; exact hs) _ _
      (foldl_preserve _ (fun s : PSt => s.fs = st.fs)
        (fun s x hs => by
          show (previewStep cfg Mode.replace (treeSizeKids st.fs + 1) s x).fs = st.fs
          rw [previewStep_fs]; exact hs) _ _ rfl)
  · exact foldl_preserve _ (fun s : PSt => s.fs = st.fs)
      (fun s x hs => by
        show (previewContentDupStep cfg s x).fs = st.fs
        rw [previewContentDupStep_fs]; exact hs) _ _
      (foldl_preserve _ (fun s : PSt => s.fs = st.fs)
        (fun s x hs => by
          show (previewStep cfg Mode.copy1 (treeSizeKids st.fs + 1) s x).fs = st.fs
          rw [previewStep_fs]; exact hs) _ _ rfl)
  · exact simulateProcessDir_fs cfg _ _ _ st

/-! ### Claim C6: rename collisions in InPlace mode -/

/-- Claim C6: in InPlace mode, when the computed new name already exists at the
target path, `_process_item_name` only logs the collision and reports no
rename: the filesystem is returned exactly unchanged (the entry keeps its
original name and no suffixed variant is created), and the rename pass goes on
folding over the remaining entries. -/
theorem claim_C6_rename_collision_skips (cfg : Config) (st : RSt) (rel : List Str)
    (rest : List (List Str))
    (h1 : (shouldIgnorePath cfg (fullPath cfg rel) ||
      (isFileFS st.fs rel && shouldCompletelyIgnoreFile cfg (fullPath cfg rel))) = false)
    (h2 : (isFileFS st.fs rel && !shouldIgnoreFile (fullPath cfg rel) &&
      itemNameContentBlocks cfg (readFS st.fs rel)) = false)
    (h4 : textMatches cfg (baseName rel) = true)
    (h5 : existsFS st.fs
      (rel.dropLast ++ [replaceTextInString cfg (baseName rel)]) = true) :
    processItemName cfg st rel =
      (st.emit (.renameExists (rel.dropLast ++ [replaceTextInString cfg (baseName rel)])),
        false) ∧
    (processItemName cfg st rel).1.fs = st.fs ∧
    (rel :: rest).foldl (phase2Step cfg) st
      = rest.foldl (phase2Step cfg) (phase2Step cfg st rel) := by
  have hmain : processItemName cfg st rel =
      (st.emit (.renameExists (rel.dropLast ++ [replaceTextInString cfg (baseName rel)])),
        false) := by
    simp only [processItemName, h1, h2, h4, h5, Bool.not_true, Bool.false_eq_true,
      if_false, if_true]
  exact ⟨hmain, by rw [hmain]; rfl, rfl⟩

/-- Witness for C6 at a concrete input: renaming "a.txt" to "b.txt" when
"b.txt" already exists. -/
theorem claim_C6_rename_collision_skips_witness :
    processItemName ⟨strLit "/r", strLit "a", strLit "b", true, false, true, [], [], []⟩
        ⟨[.file (strLit "a.txt") [], .file (strLit "b.txt") []], [], 0, none⟩
        [strLit "a.txt"] =
      (RSt.emit ⟨[.file (strLit "a.txt") [], .file (strLit "b.txt") []], [], 0, none⟩
        (.renameExists ([strLit "a.txt"].dropLast ++
          [replaceTextInString ⟨strLit "/r", strLit "a", strLit "b", true, false, true, [], [], []⟩
            (baseName [strLit "a.txt"])])), false) :=
  (claim_C6_rename_collision_skips
    ⟨strLit "/r", strLit "a", strLit "b", true, false, true, [], [], []⟩
    ⟨[.file (strLit "a.txt") [], .file (strLit "b.txt") []], [], 0, none⟩
    [strLit "a.txt"] []
    (by decide) (by decide) (by decide) (by decide)).1

/-! ### Claim C7: TreeCopy pass structure on the multiplicative example -/

/-- Claim C7: running TreeCopy (`copy2`) with search "foo" and replacement
"bar" on `root/foo/foo/file_foo.txt` produces renamed copies at both the outer
level (`root/bar`, with pass 4 then processing it into `root/bar/bar`) and the
inner level (`root/foo/bar`); the final tree is computed exactly, and its log
shows pass 1 of each level running before the pass-3 recursions into original
subdirectories and the pass-4 recursions into the created renamed copies. -/
theorem claim_C7_treecopy_multiplicative :
    (runCopy2 ⟨strLit "/r", strLit "foo", strLit "bar", true, false, true, [], [], []⟩
        ⟨[.dir (strLit "foo") [.dir (strLit "foo")
            [.file (strLit "file_foo.txt") (strLit "x")]]], [], 0, none⟩).fs =
      [.dir (strLit "foo")
        [.dir (strLit "foo")
          [.file (strLit "file_foo.txt") (strLit "x"), .file (strLit "file_bar.txt") (strLit "x")],
         .dir (strLit "bar")
          [.file (strLit "file_foo.txt") (strLit "x"), .file (strLit "file_bar.txt") (strLit "x")]],
       .dir (strLit "bar")
        [.dir (strLit "foo")
          [.file (strLit "file_foo.txt") (strLit "x"), .file (strLit "file_bar.txt") (strLit "x")],
         .dir (strLit "bar")
          [.file (strLit "file_foo.txt") (strLit "x"), .file (strLit "file_bar.txt") (strLit "x")]]] ∧
    (runCopy2 ⟨strLit "/r", strLit "foo", strLit "bar", true, false, true, [], [], []⟩
        ⟨[.dir (strLit "foo") [.dir (strLit "foo")
            [.file (strLit "file_foo.txt") (strLit "x")]]], [], 0, none⟩).log =
      [.copiedDir [strLit "bar"] (strLit "foo") true,
       .copiedDir [strLit "foo", strLit "bar"] (strLit "foo") true,
       .copiedFile [strLit "foo", strLit "foo", strLit "file_bar.txt"] (strLit "file_foo.txt")
         true false,
       .copiedFile [strLit "foo", strLit "bar", strLit "file_bar.txt"] (strLit "file_foo.txt")
         true false,
       .copiedDir [strLit "bar", strLit "bar"] (strLit "foo") true,
       .copiedFile [strLit "bar", strLit "foo", strLit "file_bar.txt"] (strLit "file_foo.txt")
         true false,
       .copiedFile [strLit "bar", strLit "bar", strLit "file_bar.txt"] (strLit "file_foo.txt")
         true false] := by
  exact ⟨rfl, by decide⟩

/-! ### Claim C1: preview fidelity fails beyond the multi-collision divergence -/

/-- Claim C1 (divergence evidence): with ignored keyword "temp", search "img",
replacement "pic", on the tree `tempd/img.txt` (content "hello"), the InPlace
preview reports a name change for `tempd/img.txt` - the preview loop checks the
ignored keywords only against the bare entry name - while the real run filters
the same entry by the full-path keyword test (line 303) and performs and logs
no action at all, leaving the tree untouched.  No name collision is involved,
so this divergence is not covered by the claim's multi-collision exception. -/
theorem claim_C1_preview_real_divergence :
    (runPreview ⟨strLit "/r", strLit "img", strLit "pic", false, false, true,
        [strLit "temp"], [], []⟩ .replace
      ⟨[.dir (strLit "tempd") [.file (strLit "img.txt") (strLit "hello")]], [], 0, none⟩).recs =
      [.nameChange (strLit "/r/tempd/img.txt") (strLit "img.txt") (strLit "pic.txt") true] ∧
    (runReal ⟨strLit "/r", strLit "img", strLit "pic", false, false, true,
        [strLit "temp"], [], []⟩ .replace
      ⟨[.dir (strLit "tempd") [.file (strLit "img.txt") (strLit "hello")]], [], 0, none⟩).log
      = [] ∧
    (runReal ⟨strLit "/r", strLit "img", strLit "pic", false, false, true,
        [strLit "temp"], [], []⟩ .replace
      ⟨[.dir (strLit "tempd") [.file (strLit "img.txt") (strLit "hello")]], [], 0, none⟩).fs =
      [.dir (strLit "tempd") [.file (strLit "img.txt") (strLit "hello")]] := by
  exact ⟨by decide, by decide, rfl⟩

/-! ### Claim C3: the rename pass order -/

/-- The sequence of entries the rename pass iterates over, as recorded by its
per-entry progress emissions. -/
def renameVisits (log : List Ev) : List (List Str) :=
  log.filterMap fun e => match e with
    | .visitedRename r => some r
    | _ => none

theorem renameVisits_append (a b : List Ev) :
    renameVisits (a ++ b) = renameVisits a ++ renameVisits b := by
  unfold renameVisits
  exact List.filterMap_append _ _ _

theorem processFileContent_log (cfg : Config) (st : RSt) (rel : List Str) :
    (processFileContent cfg st rel).1.stopAt = st.stopAt ∧
    renameVisits (processFileContent cfg st rel).1.log = renameVisits st.log := by
  simp only [processFileContent]
  repeat' split
  all_goals first
    | exact ⟨rfl, rfl⟩
    | · refine ⟨rfl, ?_⟩
        show renameVisits (st.log ++ [_]) = renameVisits st.log
        rw [renameVisits_append]
        simp [renameVisits]

theorem processItemName_log (cfg : Config) (st : RSt) (rel : List Str) :
    (processItemName cfg st rel).1.stopAt = st.stopAt ∧
    renameVisits (processItemName cfg st rel).1.log = renameVisits st.log := by
  simp only [processItemName]
  repeat' split
  all_goals first
    | exact ⟨rfl, rfl⟩
    | · refine ⟨rfl, ?_⟩
        show renameVisits (st.log ++ [_]) = renameVisits st.log
        rw [renameVisits_append]
        simp [renameVisits]

theorem phase1Step_log (cfg : Config) (st : RSt) (rel : List Str) :
    (phase1Step cfg st rel).stopAt = st.stopAt ∧
    renameVisits (phase1Step cfg st rel).log = renameVisits st.log := by
  simp only [phase1Step]
  split
  · exact ⟨rfl, rfl⟩
  · have hbase : renameVisits (((st.tick).emit (.visitedFile rel)).log)
        = renameVisits st.log := by
      show renameVisits (st.log ++ [_]) = renameVisits st.log
      rw [renameVisits_append]
      simp [renameVisits]
    split
    · exact ⟨rfl, hbase⟩
    · have h := processFileContent_log cfg ((st.tick).emit (.visitedFile rel)) rel
      exact ⟨h.1, h.2.trans hbase⟩

theorem phase2Step_log (cfg : Config) (st : RSt) (rel : List Str)
    (hs : st.stopAt = none) :
    (phase2Step cfg st rel).stopAt = none ∧
    renameVisits (phase2Step cfg st rel).log = renameVisits st.log ++ [rel] := by
  have hstop : st.stopReq = false := by
    unfold RSt.stopReq
    rw [hs]
  simp only [phase2Step]
  rw [hstop]
  simp only [Bool.false_eq_true, if_false]
  have hbase : renameVisits (((st.tick).emit (.visitedRename rel)).log)
      = renameVisits st.log ++ [rel] := by
    show renameVisits (st.log ++ [_]) = renameVisits st.log ++ [rel]
    rw [renameVisits_append]
    simp [renameVisits]
  split
  · exact ⟨hs, hbase⟩
  · have h := processItemName_log cfg ((st.tick).emit (.visitedRename rel)) rel
    exact ⟨h.1.trans hs, h.2.trans hbase⟩

theorem phase2_fold_log (cfg : Config) :
    ∀ (l : List (List Str)) (st : RSt), st.stopAt = none →
      renameVisits ((l.foldl (phase2Step cfg) st).log) = renameVisits st.log ++ l := by
  intro l
  induction l with
  | nil => intro st _; simp
  | cons x xs ih =>
    intro st hs
    have h := phase2Step_log cfg st x hs
    show renameVisits ((xs.foldl (phase2Step cfg) (phase2Step cfg st x)).log) = _
    rw [ih _ h.1, h.2]
    simp

theorem phase1_fold_log (cfg : Config) :
    ∀ (l : List (List Str)) (st : RSt),
      (l.foldl (phase1Step cfg) st).stopAt = st.stopAt ∧
      renameVisits ((l.foldl (phase1Step cfg) st).log) = renameVisits st.log := by
  intro l
  induction l with
  | nil => intro st; exact ⟨rfl, rfl⟩
  | cons x xs ih =>
    intro st
    have h := phase1Step_log cfg st x
    have h2 := ih (phase1Step cfg st x)
    exact ⟨h2.1.trans h.1, h2.2.trans h.2⟩

mutual

/-- Well-formed tree: at every directory level the children's names are
distinct (as they are on a real filesystem). -/
def wfTree : FSTree → Bool
  | .file _ _ => true
  | .dir _ cs => decide ((cs.map FSTree.name).Nodup) && wfKids cs

/-- All trees of a forest are well-formed. -/
def wfKids : List FSTree → Bool
  | [] => true
  | c :: cs => wfTree c && wfKids cs

end

/-- Well-formed working folder: distinct top-level names, well-formed trees. -/
def wfFS (cs : List FSTree) : Bool := decide ((cs.map FSTree.name).Nodup) && wfKids cs

/-- Every proper-prefix pair of `l` occurs with the shorter path first. -/
def orderedL (l : List (List Str)) : Prop :=
  ∀ q p, q ∈ l → p ∈ l → q <+: p → q ≠ p → [q, p].Sublist l

theorem consPre {α : Type} {a b : α} {l₁ l₂ : List α} :
    (a :: l₁ <+: b :: l₂) ↔ a = b ∧ (l₁ <+: l₂) := by
  constructor
  · rintro ⟨t, ht⟩
    injection ht with h1 h2
    exact ⟨h1, t, h2⟩
  · rintro ⟨rfl, t, ht⟩
    exact ⟨t, by rw [List.cons_append, ht]⟩

theorem mem_nodeItemsKids {p : List Str} :
    ∀ {cs : List FSTree}, p ∈ nodeItemsKids cs → ∃ c, c ∈ cs ∧ p ∈ nodeItems c := by
  intro cs
  induction cs with
  | nil => intro h; simp [nodeItemsKids] at h
  | cons c cs ih =>
    intro h
    rcases List.mem_append.mp h with h1 | h2
    · exact ⟨c, List.mem_cons_self _ _, h1⟩
    · obtain ⟨c', hc', hp⟩ := ih h2
      exact ⟨c', List.mem_cons_of_mem _ hc', hp⟩

theorem treeSize_pos (t : FSTree) : 1 ≤ treeSize t := by
  cases t <;> simp [treeSize]

theorem treeSize_le_kids {c : FSTree} : ∀ {cs : List FSTree}, c ∈ cs →
    treeSize c ≤ treeSizeKids cs := by
  intro cs
  induction cs with
  | nil => intro h; simp at h
  | cons d ds ih =>
    intro h
    rcases List.mem_cons.mp h with rfl | h2
    · simp [treeSizeKids]
    · have := ih h2
      simp only [treeSizeKids]
      omega

theorem nodeItems_shape : ∀ (k : Nat) (t : FSTree), treeSize t ≤ k →
    ∀ p ∈ nodeItems t, ∃ r, p = t.name :: r ∧ r ≠ [] := by
  intro k
  induction k with
  | zero =>
    intro t ht
    have := treeSize_pos t
    omega
  | succ k ih =>
    intro t ht p hp
    cases t with
    | file n c => simp [nodeItems] at hp
    | dir n cs =>
      simp only [nodeItems, List.mem_map] at hp
      obtain ⟨r, hr, rfl⟩ := hp
      refine ⟨r, rfl, ?_⟩
      rcases List.mem_append.mp hr with h | h
      · obtain ⟨c, _, rfl⟩ := List.mem_map.mp h
        simp
      · obtain ⟨c, hc, hpc⟩ := mem_nodeItemsKids h
        have hsz : treeSize c ≤ k := by
          have h1 := treeSize_le_kids hc
          simp only [treeSize] at ht
          omega
        obtain ⟨r', hr', _⟩ := ih c hsz r hpc
        rw [hr']
        simp

theorem wfKids_mem {c : FSTree} : ∀ {cs : List FSTree}, wfKids cs = true → c ∈ cs →
    wfTree c = true := by
  intro cs
  induction cs with
  | nil => intro _ h; simp at h
  | cons d ds ih =>
    intro hwf h
    simp only [wfKids, Bool.and_eq_true] at hwf
    rcases List.mem_cons.mp h with rfl | h2
    · exact hwf.1
    · exact ih hwf.2 h2

theorem kids_ordered_aux :
    ∀ (cs : List FSTree), ((cs.map FSTree.name).Nodup) →
      (∀ c ∈ cs, ∀ q p, q ∈ nodeItems c → p ∈ nodeItems c → q <+: p → q ≠ p →
        [q, p].Sublist (nodeItems c)) →
      ∀ q p, q ∈ nodeItemsKids cs → p ∈ nodeItemsKids cs → q <+: p → q ≠ p →
        [q, p].Sublist (nodeItemsKids cs) := by
  intro cs
  induction cs with
  | nil => intro _ _ q p hq; simp [nodeItemsKids] at hq
  | cons c cs ih =>
    intro hnd htree q p hq hp hqp hne
    have hnd2 : ((cs.map FSTree.name).Nodup) := by
      simp only [List.map_cons, List.nodup_cons] at hnd
      exact hnd.2
    have hnotin : c.name ∉ cs.map FSTree.name := by
      simp only [List.map_cons, List.nodup_cons] at hnd
      exact hnd.1
    rcases List.mem_append.mp hq with hq1 | hq2 <;> rcases List.mem_append.mp hp with hp1 | hp2
    · exact (htree c (List.mem_cons_self _ _) q p hq1 hp1 hqp hne).trans
        (List.sublist_append_left _ _)
    · obtain ⟨rq, hrq, _⟩ := nodeItems_shape (treeSize c) c le_rfl q hq1
      obtain ⟨c', hc', hpc'⟩ := mem_nodeItemsKids hp2
      obtain ⟨rp, hrp, _⟩ := nodeItems_shape (treeSize c') c' le_rfl p hpc'
      rw [hrq, hrp] at hqp
      have hname : c.name = c'.name := (consPre.mp hqp).1
      exact absurd (hname ▸ List.mem_map_of_mem FSTree.name hc') hnotin
    · obtain ⟨c', hc', hqc'⟩ := mem_nodeItemsKids hq2
      obtain ⟨rq, hrq, _⟩ := nodeItems_shape (treeSize c') c' le_rfl q hqc'
      obtain ⟨rp, hrp, _⟩ := nodeItems_shape (treeSize c) c le_rfl p hp1
      rw [hrq, hrp] at hqp
      have hname : c'.name = c.name := (consPre.mp hqp).1
      exact absurd (hname ▸ List.mem_map_of_mem FSTree.name hc') hnotin
    · exact (ih hnd2 (fun c' hc' => htree c' (List.mem_cons_of_mem _ hc')) q p hq2 hp2
        hqp hne).trans (List.sublist_append_right _ _)

theorem itemsF_ordered : ∀ (k : Nat) (cs : List FSTree), treeSizeKids cs ≤ k →
    ((cs.map FSTree.name).Nodup) → wfKids cs = true →
    orderedL ((cs.map fun c => [c.name]) ++ nodeItemsKids cs) := by
  intro k
  induction k with
  | zero =>
    intro cs hsz hnd hwf q p hq hp hqp hne
    cases cs with
    | nil => simp [nodeItemsKids] at hq
    | cons c cs =>
      have := treeSize_pos c
      simp only [treeSizeKids] at hsz
      omega
  | succ k ih =>
    intro cs hsz hnd hwf q p hq hp hqp hne
    have htree : ∀ c ∈ cs, ∀ q p, q ∈ nodeItems c → p ∈ nodeItems c → q <+: p → q ≠ p →
        [q, p].Sublist (nodeItems c) := by
      intro c hc q' p' hq' hp' hqp' hne'
      cases c with
      | file n ct => simp [nodeItems] at hq'
      | dir m ds =>
        simp only [nodeItems, List.mem_map] at hq' hp'
        obtain ⟨rq, hrq, hrq2⟩ := hq'
        obtain ⟨rp, hrp, hrp2⟩ := hp'
        subst hrq2
        subst hrp2
        have hpre : rq <+: rp := (consPre.mp hqp').2
        have hne2 : rq ≠ rp := fun h => hne' (by rw [h])
        have hwtc : wfTree (FSTree.dir m ds) = true := wfKids_mem hwf hc
        simp only [wfTree, Bool.and_eq_true, decide_eq_true_eq] at hwtc
        have hszd : treeSizeKids ds ≤ k := by
          have h1 := treeSize_le_kids hc
          simp only [treeSize] at h1
          omega
        have hsub := ih ds hszd hwtc.1 hwtc.2 rq rp hrq hrp hpre hne2
        have := hsub.map (fun r => FSTree.name (FSTree.dir m ds) :: r)
        simpa [nodeItems] using this
    rcases List.mem_append.mp hq with hqA | hqB
    · rcases List.mem_append.mp hp with hpA | hpB
      · obtain ⟨cq, _, hcq⟩ := List.mem_map.mp hqA
        obtain ⟨cp, _, hcp⟩ := List.mem_map.mp hpA
        subst hcq
        subst hcp
        have := (consPre.mp hqp).2
        have h0 : ([] : List Str) <+: [] := this
        exact absurd (by rw [(consPre.mp hqp).1]) hne
      · exact List.Sublist.append (List.singleton_sublist.mpr hqA)
          (List.singleton_sublist.mpr hpB)
    · rcases List.mem_append.mp hp with hpA | hpB
      · obtain ⟨c', hc', hqc'⟩ := mem_nodeItemsKids hqB
        obtain ⟨rq, hrq, hrqne⟩ := nodeItems_shape (treeSize c') c' le_rfl q hqc'
        obtain ⟨cp, _, hcp⟩ := List.mem_map.mp hpA
        subst hcp
        rw [hrq] at hqp
        have := (consPre.mp hqp).2
        obtain ⟨t, ht⟩ := this
        simp at ht
        exact absurd ht.1 hrqne
      · exact (kids_ordered_aux cs hnd htree q p hqB hpB hqp hne).trans
          (List.sublist_append_right _ _)

theorem getAllItems_ordered (cfg : Config) (fs : List FSTree) (h : wfFS fs = true) :
    orderedL (getAllItems cfg fs) := by
  simp only [wfFS, Bool.and_eq_true, decide_eq_true_eq] at h
  unfold getAllItems
  cases hs : cfg.includeSubfolders
  · simp only [Bool.false_eq_true, if_false]
    intro q p hq hp hqp hne
    simp only [List.append_nil] at hq hp ⊢
    obtain ⟨cq, _, hcq⟩ := List.mem_map.mp hq
    obtain ⟨cp, _, hcp⟩ := List.mem_map.mp hp
    subst hcq
    subst hcp
    exact absurd (by rw [(consPre.mp hqp).1]) hne
  · simp only [if_true]
    exact itemsF_ordered (treeSizeKids fs) fs le_rfl h.1 h.2

/-- Claim C3: in InPlace mode the rename pass visits exactly the entries of the
keyword-filtered discovery list, in exactly the reverse of their discovery
order; consequently (for a well-formed tree) every entry is offered for
renaming before any of its ancestor directories. -/
theorem claim_C3_rename_pass_order (cfg : Config) (fs : List FSTree)
    (hwf : wfFS fs = true) :
    renameVisits ((runReplacement cfg ⟨fs, [], 0, none⟩).log)
      = ((getAllItems cfg fs).filter
          (fun r => !containsIgnoredWord cfg (fullPath cfg r))).reverse ∧
    (∀ q p,
      q ∈ (getAllItems cfg fs).filter (fun r => !containsIgnoredWord cfg (fullPath cfg r)) →
      p ∈ (getAllItems cfg fs).filter (fun r => !containsIgnoredWord cfg (fullPath cfg r)) →
      q <+: p → q ≠ p →
      [p, q].Sublist (renameVisits ((runReplacement cfg ⟨fs, [], 0, none⟩).log))) := by
  have hpart1 : renameVisits ((runReplacement cfg ⟨fs, [], 0, none⟩).log)
      = ((getAllItems cfg fs).filter
          (fun r => !containsIgnoredWord cfg (fullPath cfg r))).reverse := by
    simp only [runReplacement]
    have hfold1 := phase1_fold_log cfg
      (((getAllItems cfg fs).filter
          (fun r => !containsIgnoredWord cfg (fullPath cfg r))).filter
        (fun r => isFileFS fs r))
      ⟨fs, [], 0, none⟩
    rw [phase2_fold_log cfg _ _ (hfold1.1.trans rfl), hfold1.2]
    rfl
  refine ⟨hpart1, ?_⟩
  intro q p hq hp hqp hne
  rw [hpart1]
  have hiq := List.mem_filter.mp hq
  have hip := List.mem_filter.mp hp
  have hsub : [q, p].Sublist (getAllItems cfg fs) :=
    getAllItems_ordered cfg fs hwf q p hiq.1 hip.1 hqp hne
  have hsubf := hsub.filter (fun r => !containsIgnoredWord cfg (fullPath cfg r))
  rw [show ([q, p].filter (fun r => !containsIgnoredWord cfg (fullPath cfg r))) = [q, p] by
    simp [List.filter, hiq.2, hip.2]] at hsubf
  have := hsubf.reverse
  simpa using this

/-- Witness for C3 at a concrete input: one directory containing one file; the
file (a descendant) is visited before its parent directory. -/
theorem claim_C3_rename_pass_order_witness :
    renameVisits ((runReplacement ⟨strLit "/r", strLit "a", strLit "b", true, false, true, [], [], []⟩
        ⟨[.dir (strLit "d") [.file (strLit "da.txt") []]], [], 0, none⟩).log)
      = [[strLit "d", strLit "da.txt"], [strLit "d"]] ∧
    [[strLit "d", strLit "da.txt"], [strLit "d"]].Sublist
      (renameVisits ((runReplacement ⟨strLit "/r", strLit "a", strLit "b", true, false, true, [], [], []⟩
        ⟨[.dir (strLit "d") [.file (strLit "da.txt") []]], [], 0, none⟩).log)) := by
  constructor
  · have h := (claim_C3_rename_pass_order
      ⟨strLit "/r", strLit "a", strLit "b", true, false, true, [], [], []⟩
      [.dir (strLit "d") [.file (strLit "da.txt") []]] (by decide)).1
    rw [h]
    decide
  · have h := (claim_C3_rename_pass_order
      ⟨strLit "/r", strLit "a", strLit "b", true, false, true, [], [], []⟩
      [.dir (strLit "d") [.file (strLit "da.txt") []]] (by decide)).2
      [strLit "d"] [strLit "d", strLit "da.txt"]
      (by decide) (by decide) (by decide) (by decide)
    have h1 := (claim_C3_rename_pass_order
      ⟨strLit "/r", strLit "a", strLit "b", true, false, true, [], [], []⟩
      [.dir (strLit "d") [.file (strLit "da.txt") []]] (by decide)).1
    rw [h1] at h ⊢
    exact h

/-! ### Frame lemmas for the filesystem primitives

`os.rename` / file writes / entry creation touch one path; these lemmas say
which observations at other paths they preserve.  They are the heart of the
keyword-exemption proof (claim C5). -/

theorem findChild_updChild_other (n : Str) (f : FSTree → FSTree) (m : Str)
    (hm : m ≠ n) (hf : ∀ t, t.name = n → (f t).name ≠ m) :
    ∀ cs : List FSTree, findChild (updChild n f cs) m = findChild cs m := by
  intro cs
  induction cs with
  | nil => rfl
  | cons t ts ih =>
    by_cases ht : t.name = n
    · simp only [updChild, if_pos (beq_iff_eq.mpr ht), findChild, List.find?]
      rw [show ((f t).name == m) = false from beq_eq_false_iff_ne.mpr (hf t ht),
        show (t.name == m) = false from beq_eq_false_iff_ne.mpr (by rw [ht]; exact fun h => hm h.symm)]
    · simp only [updChild, if_neg (fun hb => ht (beq_iff_eq.mp hb)), findChild, List.find?]
      cases hq : (t.name == m)
      · exact ih
      · rfl

theorem findChild_updChild_self (n : Str) (f : FSTree → FSTree)
    (hf : ∀ t, (f t).name = t.name) :
    ∀ cs : List FSTree, findChild (updChild n f cs) n = (findChild cs n).map f := by
  intro cs
  induction cs with
  | nil => rfl
  | cons t ts ih =>
    by_cases ht : t.name = n
    · simp only [updChild, if_pos (beq_iff_eq.mpr ht), findChild, List.find?, hf t,
        beq_iff_eq.mpr ht, Option.map]
    · simp only [updChild, if_neg (fun hb => ht (beq_iff_eq.mp hb)), findChild, List.find?]
      cases hq : (t.name == n)
      · exact ih
      · exact absurd (beq_iff_eq.mp hq) ht

theorem lookupFS_congr_head (cs cs' : List FSTree) (m : Str) (r' : List Str)
    (h : findChild cs' m = findChild cs m) :
    lookupFS cs' (m :: r') = lookupFS cs (m :: r') := by
  cases r' with
  | nil => simpa [lookupFS] using h
  | cons b bs => simp only [lookupFS, h]

theorem readFS_congr_lookup (cs cs' : List FSTree) (p : List Str)
    (h : lookupFS cs' p = lookupFS cs p) :
    readFS cs' p = readFS cs p ∧ isFileFS cs' p = isFileFS cs p ∧
      existsFS cs' p = existsFS cs p := by
  refine ⟨?_, ?_, ?_⟩ <;> simp only [readFS, isFileFS, existsFS, h]

/-- A rename at `y` (to a fresh name, so the target path is distinct) preserves
readability and file-status of every path that passes through neither `y` nor
the rename target. -/
theorem renameFS_frame : ∀ (y : List Str) (fs : List FSTree) (newName : Str) (r : List Str),
    ¬(y <+: r) → ¬((y.dropLast ++ [newName]) <+: r) →
    readFS (renameFS fs y newName) r = readFS fs r ∧
    isFileFS (renameFS fs y newName) r = isFileFS fs r := by
  intro y
  induction y with
  | nil => exact fun fs newName r h1 _ => absurd (List.nil_prefix) h1
  | cons n y'' ih =>
    intro fs newName r h1 h2
    cases y'' with
    | nil =>
      cases r with
      | nil => exact ⟨rfl, rfl⟩
      | cons m r' =>
        have hm : m ≠ n := fun hmn =>
          h1 (List.cons_prefix_cons.mpr ⟨hmn.symm, List.nil_prefix⟩)
        have hm2 : m ≠ newName := fun hmn =>
          h2 (List.cons_prefix_cons.mpr ⟨hmn.symm, List.nil_prefix⟩)
        have hfc : findChild (renameFS fs [n] newName) m = findChild fs m := by
          refine findChild_updChild_other n _ m hm (fun t _ => ?_) fs
          cases t <;> exact fun h => hm2 h.symm
        have := readFS_congr_lookup fs (renameFS fs [n] newName) (m :: r')
          (lookupFS_congr_head fs _ m r' hfc)
        exact ⟨this.1, this.2.1⟩
    | cons b bs =>
      cases r with
      | nil => exact ⟨rfl, rfl⟩
      | cons m r' =>
        by_cases hm : m = n
        · subst hm
          have hsel := findChild_updChild_self m
            (fun t => match t with
              | .dir m2 cs2 => .dir m2 (updateFS cs2 (b :: bs)
                  (fun t => match t with
                    | .file _ c => .file newName c
                    | .dir _ cs2 => .dir newName cs2))
              | other => other)
            (fun t => by cases t <;> rfl) fs
          cases hfc : findChild fs m with
          | none =>
            have := readFS_congr_lookup fs (renameFS fs (m :: b :: bs) newName) (m :: r')
              (lookupFS_congr_head fs _ m r' (by
                show findChild (updChild m _ fs) m = findChild fs m
                rw [hsel, hfc]; rfl))
            exact ⟨this.1, this.2.1⟩
          | some t =>
            cases t with
            | file nm c =>
              have := readFS_congr_lookup fs (renameFS fs (m :: b :: bs) newName) (m :: r')
                (lookupFS_congr_head fs _ m r' (by
                  show findChild (updChild m _ fs) m = findChild fs m
                  rw [hsel, hfc]; rfl))
              exact ⟨this.1, this.2.1⟩
            | dir nm cs2 =>
              have hfc' : findChild (renameFS fs (m :: b :: bs) newName) m
                  = some (.dir nm (renameFS cs2 (b :: bs) newName)) := by
                show findChild (updChild m _ fs) m = _
                rw [hsel, hfc]; rfl
              cases r' with
              | nil =>
                constructor
                · simp only [readFS, lookupFS, hfc, hfc']
                · simp only [isFileFS, lookupFS, hfc, hfc']
              | cons b' bs' =>
                have h1' : ¬((b :: bs) <+: (b' :: bs')) := fun hp =>
                  h1 (List.cons_prefix_cons.mpr ⟨rfl, hp⟩)
                have h2' : ¬(((b :: bs).dropLast ++ [newName]) <+: (b' :: bs')) := fun hp =>
                  h2 (by
                    have hdl : (m :: b :: bs).dropLast = m :: (b :: bs).dropLast := rfl
                    rw [hdl]
                    exact List.cons_prefix_cons.mpr ⟨rfl, hp⟩)
                have hih := ih cs2 newName (b' :: bs') h1' h2'
                constructor
                · simp only [readFS, lookupFS, hfc, hfc']
                  have := hih.1
                  simp only [readFS] at this
                  exact this
                · simp only [isFileFS, lookupFS, hfc, hfc']
                  have := hih.2
                  simp only [isFileFS] at this
                  exact this
        · have hfc : findChild (renameFS fs (n :: b :: bs) newName) m = findChild fs m := by
            refine findChild_updChild_other n _ m hm (fun t ht => ?_) fs
            cases t with
            | file nm c => simpa [FSTree.name] using fun h => hm (h.symm.trans ht)
            | dir nm cs2 => simpa [FSTree.name] using fun h => hm (h.symm.trans ht)
          have := readFS_congr_lookup fs (renameFS fs (n :: b :: bs) newName) (m :: r')
            (lookupFS_congr_head fs _ m r' hfc)
          exact ⟨this.1, this.2.1⟩

/-- Overwriting a file's content never changes the shape of the tree: every
path keeps its existence and its file/directory status. -/
theorem writeFS_shape : ∀ (y : List Str) (fs : List FSTree) (c : Str) (r : List Str),
    isFileFS (writeFS fs y c) r = isFileFS fs r ∧
    existsFS (writeFS fs y c) r = existsFS fs r := by
  intro y
  induction y with
  | nil => exact fun fs c r => ⟨rfl, rfl⟩
  | cons n y'' ih =>
    intro fs c r
    cases r with
    | nil => exact ⟨rfl, rfl⟩
    | cons m r' =>
      by_cases hm : m = n
      · subst hm
        cases y'' with
        | nil =>
          have hsel := findChild_updChild_self m
            (fun t => match t with | .file nm _ => .file nm c | d => d)
            (fun t => by cases t <;> rfl) fs
          cases hfc : findChild fs m with
          | none =>
            have := readFS_congr_lookup fs (writeFS fs [m] c) (m :: r')
              (lookupFS_congr_head fs _ m r' (by
                show findChild (updChild m _ fs) m = findChild fs m
                rw [hsel, hfc]; rfl))
            exact ⟨this.2.1, this.2.2⟩
          | some t =>
            cases t with
            | file nm c0 =>
              have hfc' : findChild (writeFS fs [m] c) m = some (.file nm c) := by
                show findChild (updChild m _ fs) m = _
                rw [hsel, hfc]; rfl
              cases r' with
              | nil =>
                constructor
                · simp only [isFileFS, lookupFS, hfc, hfc']
                · simp only [existsFS, lookupFS, hfc, hfc', Option.isSome]
              | cons b' bs' =>
                constructor
                · simp only [isFileFS, lookupFS, hfc, hfc']
                · simp only [existsFS, lookupFS, hfc, hfc', Option.isSome]
            | dir nm cs2 =>
              have := readFS_congr_lookup fs (writeFS fs [m] c) (m :: r')
                (lookupFS_congr_head fs _ m r' (by
                  show findChild (updChild m _ fs) m = findChild fs m
                  rw [hsel, hfc]; rfl))
              exact ⟨this.2.1, this.2.2⟩
        | cons b bs =>
          have hsel := findChild_updChild_self m
            (fun t => match t with
              | .dir m2 cs2 => .dir m2 (updateFS cs2 (b :: bs)
                  (fun t => match t with | .file nm _ => .file nm c | d => d))
              | other => other)
            (fun t => by cases t <;> rfl) fs
          cases hfc : findChild fs m with
          | none =>
            have := readFS_congr_lookup fs (writeFS fs (m :: b :: bs) c) (m :: r')
              (lookupFS_congr_head fs _ m r' (by
                show findChild (updChild m _ fs) m = findChild fs m
                rw [hsel, hfc]; rfl))
            exact ⟨this.2.1, this.2.2⟩
          | some t =>
            cases t with
            | file nm c0 =>
              have := readFS_congr_lookup fs (writeFS fs (m :: b :: bs) c) (m :: r')
                (lookupFS_congr_head fs _ m r' (by
                  show findChild (updChild m _ fs) m = findChild fs m
                  rw [hsel, hfc]; rfl))
              exact ⟨this.2.1, this.2.2⟩
            | dir nm cs2 =>
              have hfc' : findChild (writeFS fs (m :: b :: bs) c) m
                  = some (.dir nm (writeFS cs2 (b :: bs) c)) := by
                show findChild (updChild m _ fs) m = _
                rw [hsel, hfc]; rfl
              cases r' with
              | nil =>
                constructor
                · simp only [isFileFS, lookupFS, hfc, hfc']
                · simp only [existsFS, lookupFS, hfc, hfc', Option.isSome]
              | cons b' bs' =>
                have hih := ih cs2 c (b' :: bs')
                constructor
                · simp only [isFileFS, lookupFS, hfc, hfc']
                  have := hih.1
                  simp only [isFileFS] at this
                  exact this
                · simp only [existsFS, lookupFS, hfc, hfc', Option.isSome]
                  have := hih.2
                  simp only [existsFS] at this
                  exact this
      · have hfc : findChild (writeFS fs (n :: y'') c) m = findChild fs m := by
          cases y'' with
          | nil =>
            refine findChild_updChild_other n _ m hm (fun t ht => ?_) fs
            cases t <;> simpa [FSTree.name] using fun h => hm (h.symm.trans ht)
          | cons b bs =>
            refine findChild_updChild_other n _ m hm (fun t ht => ?_) fs
            cases t <;> simpa [FSTree.name] using fun h => hm (h.symm.trans ht)
        have := readFS_congr_lookup fs (writeFS fs (n :: y'') c) (m :: r')
          (lookupFS_congr_head fs _ m r' hfc)
        exact ⟨this.2.1, this.2.2⟩

/-- A write at `y` leaves the readable content of every other path unchanged. -/
theorem writeFS_frame : ∀ (y : List Str) (fs : List FSTree) (c : Str) (r : List Str),
    r ≠ y → readFS (writeFS fs y c) r = readFS fs r := by
  intro y
  induction y with
  | nil => exact fun fs c r _ => rfl
  | cons n y'' ih =>
    intro fs c r hne
    cases r with
    | nil => rfl
    | cons m r' =>
      by_cases hm : m = n
      · subst hm
        cases y'' with
        | nil =>
          have hsel := findChild_updChild_self m
            (fun t => match t with | .file nm _ => .file nm c | d => d)
            (fun t => by cases t <;> rfl) fs
          cases hfc : findChild fs m with
          | none =>
            exact (readFS_congr_lookup fs (writeFS fs [m] c) (m :: r')
              (lookupFS_congr_head fs _ m r' (by
                show findChild (updChild m _ fs) m = findChild fs m
                rw [hsel, hfc]; rfl))).1
          | some t =>
            cases t with
            | file nm c0 =>
              have hfc' : findChild (writeFS fs [m] c) m = some (.file nm c) := by
                show findChild (updChild m _ fs) m = _
                rw [hsel, hfc]; rfl
              cases r' with
              | nil => exact absurd rfl hne
              | cons b' bs' => simp only [readFS, lookupFS, hfc, hfc']
            | dir nm cs2 =>
              exact (readFS_congr_lookup fs (writeFS fs [m] c) (m :: r')
                (lookupFS_congr_head fs _ m r' (by
                  show findChild (updChild m _ fs) m = findChild fs m
                  rw [hsel, hfc]; rfl))).1
        | cons b bs =>
          have hsel := findChild_updChild_self m
            (fun t => match t with
              | .dir m2 cs2 => .dir m2 (updateFS cs2 (b :: bs)
                  (fun t => match t with | .file nm _ => .file nm c | d => d))
              | other => other)
            (fun t => by cases t <;> rfl) fs
          cases hfc : findChild fs m with
          | none =>
            exact (readFS_congr_lookup fs (writeFS fs (m :: b :: bs) c) (m :: r')
              (lookupFS_congr_head fs _ m r' (by
                show findChild (updChild m _ fs) m = findChild fs m
                rw [hsel, hfc]; rfl))).1
          | some t =>
            cases t with
            | file nm c0 =>
              exact (readFS_congr_lookup fs (writeFS fs (m :: b :: bs) c) (m :: r')
                (lookupFS_congr_head fs _ m r' (by
                  show findChild (updChild m _ fs) m = findChild fs m
                  rw [hsel, hfc]; rfl))).1
            | dir nm cs2 =>
              have hfc' : findChild (writeFS fs (m :: b :: bs) c) m
                  = some (.dir nm (writeFS cs2 (b :: bs) c)) := by
                show findChild (updChild m _ fs) m = _
                rw [hsel, hfc]; rfl
              cases r' with
              | nil => simp only [readFS, lookupFS, hfc, hfc']
              | cons b' bs' =>
                have hih := ih cs2 c (b' :: bs') (fun h => hne (by rw [h]))
                simp only [readFS, lookupFS, hfc, hfc']
                simp only [readFS] at hih
                exact hih
      · have hfc : findChild (writeFS fs (n :: y'') c) m = findChild fs m := by
          cases y'' with
          | nil =>
            refine findChild_updChild_other n _ m hm (fun t ht => ?_) fs
            cases t <;> simpa [FSTree.name] using fun h => hm (h.symm.trans ht)
          | cons b bs =>
            refine findChild_updChild_other n _ m hm (fun t ht => ?_) fs
            cases t <;> simpa [FSTree.name] using fun h => hm (h.symm.trans ht)
        exact (readFS_congr_lookup fs (writeFS fs (n :: y'') c) (m :: r')
          (lookupFS_congr_head fs _ m r' hfc)).1

theorem findChild_append_of_found (ts : List FSTree) (m : Str) (u : FSTree) :
    ∀ cs : List FSTree, findChild cs m = some u → findChild (cs ++ ts) m = some u := by
  intro cs
  induction cs with
  | nil => intro h; exact absurd h (by simp [findChild])
  | cons t' cs' ih =>
    intro h
    simp only [findChild, List.find?, List.cons_append] at h ⊢
    cases hq : (t'.name == m)
    · rw [hq] at h; exact ih h
    · rw [hq] at h; exact h

theorem lookupFS_append_of_exists (fs : List FSTree) (t : FSTree) :
    ∀ q : List Str, existsFS fs q = true → lookupFS (fs ++ [t]) q = lookupFS fs q := by
  intro q hq
  cases q with
  | nil => simp [existsFS, lookupFS] at hq
  | cons m r' =>
    cases hfc : findChild fs m with
    | none =>
      exfalso
      cases r' with
      | nil => simp [existsFS, lookupFS, hfc] at hq
      | cons b bs => simp [existsFS, lookupFS, hfc] at hq
    | some u =>
      have hfc' := findChild_append_of_found [t] m u fs hfc
      cases r' with
      | nil => simp only [lookupFS, hfc, hfc']
      | cons b bs => simp only [lookupFS, hfc, hfc']

/-- Creating a fresh entry somewhere never removes an existing path
(`os.makedirs` / `shutil.copy2` to a fresh target keep all old entries). -/
theorem createFS_exists_mono : ∀ (parent : List Str) (fs : List FSTree) (t : FSTree)
    (q : List Str), existsFS fs q = true → existsFS (createFS fs parent t) q = true := by
  intro parent
  induction parent with
  | nil =>
    intro fs t q h
    show (lookupFS (fs ++ [t]) q).isSome = true
    rw [lookupFS_append_of_exists fs t q h]
    exact h
  | cons n rest ih =>
    intro fs t q h
    cases q with
    | nil => simp [existsFS, lookupFS] at h
    | cons m r' =>
      by_cases hm : m = n
      · subst hm
        cases rest with
        | nil =>
          have hsel := findChild_updChild_self m
            (fun node => match node with
              | .dir m2 cs2 => .dir m2 (cs2 ++ [t])
              | other => other)
            (fun node => by cases node <;> rfl) fs
          cases hfc : findChild fs m with
          | none =>
            exfalso
            cases r' with
            | nil => simp [existsFS, lookupFS, hfc] at h
            | cons b bs => simp [existsFS, lookupFS, hfc] at h
          | some u =>
            cases u with
            | file nm c =>
              have hfc' : findChild (createFS fs [m] t) m = some (.file nm c) := by
                show findChild (updChild m _ fs) m = _
                rw [hsel, hfc]; rfl
              cases r' with
              | nil => simp [existsFS, lookupFS, hfc']
              | cons b bs => simp [existsFS, lookupFS, hfc] at h
            | dir nm cs2 =>
              have hfc' : findChild (createFS fs [m] t) m = some (.dir nm (cs2 ++ [t])) := by
                show findChild (updChild m _ fs) m = _
                rw [hsel, hfc]; rfl
              cases r' with
              | nil => simp [existsFS, lookupFS, hfc']
              | cons b bs =>
                have h2 : existsFS cs2 (b :: bs) = true := by
                  simpa [existsFS, lookupFS, hfc] using h
                have := lookupFS_append_of_exists cs2 t (b :: bs) h2
                simp only [existsFS, lookupFS, hfc', this]
                exact h2
        | cons b0 bs0 =>
          have hsel := findChild_updChild_self m
            (fun node => match node with
              | .dir m2 cs2 => .dir m2 (updateFS cs2 (b0 :: bs0)
                  (fun node => match node with
                    | .dir m3 cs3 => .dir m3 (cs3 ++ [t])
                    | other => other))
              | other => other)
            (fun node => by cases node <;> rfl) fs
          cases hfc : findChild fs m with
          | none =>
            exfalso
            cases r' with
            | nil => simp [existsFS, lookupFS, hfc] at h
            | cons b bs => simp [existsFS, lookupFS, hfc] at h
          | some u =>
            cases u with
            | file nm c =>
              have hfc' : findChild (createFS fs (m :: b0 :: bs0) t) m = some (.file nm c) := by
                show findChild (updChild m _ fs) m = _
                rw [hsel, hfc]; rfl
              cases r' with
              | nil => simp [existsFS, lookupFS, hfc']
              | cons b bs => simp [existsFS, lookupFS, hfc] at h
            | dir nm cs2 =>
              have hfc' : findChild (createFS fs (m :: b0 :: bs0) t) m
                  = some (.dir nm (createFS cs2 (b0 :: bs0) t)) := by
                show findChild (updChild m _ fs) m = _
                rw [hsel, hfc]; rfl
              cases r' with
              | nil => simp [existsFS, lookupFS, hfc']
              | cons b bs =>
                have h2 : existsFS cs2 (b :: bs) = true := by
                  simpa [existsFS, lookupFS, hfc] using h
                have := ih cs2 t (b :: bs) h2
                simpa [existsFS, lookupFS, hfc'] using this
      · have hfc : findChild (createFS fs (n :: rest) t) m = findChild fs m := by
          cases rest with
          | nil =>
            refine findChild_updChild_other n _ m hm (fun node ht => ?_) fs
            cases node <;> simpa [FSTree.name] using fun hh => hm (hh.symm.trans ht)
          | cons b0 bs0 =>
            refine findChild_updChild_other n _ m hm (fun node ht => ?_) fs
            cases node <;> simpa [FSTree.name] using fun hh => hm (hh.symm.trans ht)
        have := (readFS_congr_lookup fs (createFS fs (n :: rest) t) (m :: r')
          (lookupFS_congr_head fs _ m r' hfc)).2.2
        rw [this]; exact h

/-- Every nonempty prefix of a resolvable path exists (`os.path.exists` of a
parent of an existing path). -/
theorem existsFS_of_prefix : ∀ (q : List Str) (fs : List FSTree) (s : List Str) (t : FSTree),
    lookupFS fs (q ++ s) = some t → q ≠ [] → existsFS fs q = true := by
  intro q
  induction q with
  | nil => intro _ _ _ _ h; exact absurd rfl h
  | cons n q'' ih =>
    intro fs s t hl _
    cases q'' with
    | nil =>
      cases s with
      | nil =>
        simp only [List.append_nil] at hl
        simp [existsFS, hl]
      | cons b bs =>
        simp only [List.cons_append, List.nil_append] at hl
        cases hfc : findChild fs n with
        | none => simp [lookupFS, hfc] at hl
        | some u =>
          cases u with
          | file nm c => simp [lookupFS, hfc] at hl
          | dir nm cs2 => simp [existsFS, lookupFS, hfc]
    | cons c cs =>
      simp only [List.cons_append] at hl
      cases hfc : findChild fs n with
      | none => simp [lookupFS, hfc] at hl
      | some u =>
        cases u with
        | file nm c0 => simp [lookupFS, hfc] at hl
        | dir nm cs2 =>
          have hl' : lookupFS cs2 ((c :: cs) ++ s) = some t := by
            simpa only [lookupFS, hfc, List.cons_append] using hl
          have := ih cs2 s t hl' (by simp)
          simpa [existsFS, lookupFS, hfc] using this

/-- A path that exists ending in name `nm` puts `nm` among the names listed in
its parent directory. -/
theorem existsFS_append_name : ∀ (parent : List Str) (fs : List FSTree) (nm : Str),
    existsFS fs (parent ++ [nm]) = true → nm ∈ namesInFS fs parent := by
  intro parent
  induction parent with
  | nil =>
    intro fs nm h
    simp only [List.nil_append, existsFS, lookupFS] at h
    cases hfc : findChild fs nm with
    | none => rw [hfc] at h; simp at h
    | some u =>
      rw [show findChild fs nm = List.find? (fun t => t.name == nm) fs from rfl] at hfc
      have hmem := List.mem_of_find?_eq_some hfc
      have hname := List.find?_some hfc
      simp only [namesInFS, childrenIn, List.mem_map]
      exact ⟨u, hmem, by simpa using hname⟩
  | cons n rest ih =>
    intro fs nm h
    simp only [List.cons_append] at h
    cases hfc : findChild fs n with
    | none =>
      exfalso
      cases hrest : rest ++ [nm] with
      | nil => exact absurd hrest (by simp)
      | cons b bs => rw [hrest] at h; simp [existsFS, lookupFS, hfc] at h
    | some u =>
      cases u with
      | file nm2 c =>
        exfalso
        cases hrest : rest ++ [nm] with
        | nil => exact absurd hrest (by simp)
        | cons b bs => rw [hrest] at h; simp [existsFS, lookupFS, hfc] at h
      | dir nm2 cs2 =>
        have h2 : existsFS cs2 (rest ++ [nm]) = true := by
          cases hrest : rest ++ [nm] with
          | nil => exact absurd hrest (by simp)
          | cons b bs =>
            rw [hrest] at h
            simpa [existsFS, lookupFS, hfc] using h
        have := ih cs2 nm h2
        cases rest with
        | nil =>
          simpa [namesInFS, childrenIn, lookupFS, hfc] using this
        | cons r0 rs =>
          simp only [namesInFS, childrenIn, lookupFS, hfc] at this ⊢
          exact this

/-- The unique-name probe of `_get_unique_name` always returns a name that is
free in the target directory. -/
theorem getUniqueName_free (entries : List Str) (orig : Str) :
    getUniqueName entries orig ∉ entries := by
  by_cases h : orig ∈ entries
  · simp only [getUniqueName, if_pos h]
    obtain ⟨j0, hj0, hfree0⟩ := exists_free_cand entries orig
    obtain ⟨j, _, hpe, hfree, _⟩ :=
      probeName_spec entries orig (entries.length + 1) 2 ⟨j0, by omega, hfree0⟩
    rw [hpe]
    exact hfree
  · simp only [getUniqueName, if_neg h]
    exact h

/-! ### Discovery order as a pairwise relation

`_get_all_items` lists ancestors before descendants, so in the list an entry is
never a proper prefix of an *earlier* entry.  This pairwise form feeds the
sequential fold of the rename pass. -/

theorem singletons_pairwise (l : List FSTree) :
    (l.map fun c => [c.name]).Pairwise (fun a b : List Str => ¬(b <+: a) ∨ b = a) := by
  induction l with
  | nil => exact List.Pairwise.nil
  | cons c cs ih =>
    refine List.Pairwise.cons ?_ ih
    intro b hb
    obtain ⟨cb, _, rfl⟩ := List.mem_map.mp hb
    by_cases he : [cb.name] = [c.name]
    · exact Or.inr he
    · refine Or.inl (fun hpre => he ?_)
      obtain ⟨t, ht⟩ := hpre
      cases t with
      | nil => simpa using ht
      | cons x xs => simp at ht

theorem kids_pairwise_aux :
    ∀ (cs : List FSTree), ((cs.map FSTree.name).Nodup) →
      (∀ c ∈ cs, (nodeItems c).Pairwise (fun a b : List Str => ¬(b <+: a) ∨ b = a)) →
      (nodeItemsKids cs).Pairwise (fun a b : List Str => ¬(b <+: a) ∨ b = a) := by
  intro cs
  induction cs with
  | nil => intro _ _; exact List.Pairwise.nil
  | cons c cs ih =>
    intro hnd htree
    have hnd2 : ((cs.map FSTree.name).Nodup) := by
      simp only [List.map_cons, List.nodup_cons] at hnd
      exact hnd.2
    have hnotin : c.name ∉ cs.map FSTree.name := by
      simp only [List.map_cons, List.nodup_cons] at hnd
      exact hnd.1
    show (nodeItems c ++ nodeItemsKids cs).Pairwise _
    rw [List.pairwise_append]
    refine ⟨htree c (List.mem_cons_self _ _), ih hnd2
      (fun c' hc' => htree c' (List.mem_cons_of_mem _ hc')), ?_⟩
    intro a ha b hb
    obtain ⟨ra, hra, _⟩ := nodeItems_shape (treeSize c) c le_rfl a ha
    obtain ⟨c', hc', hbc'⟩ := mem_nodeItemsKids hb
    obtain ⟨rb, hrb, _⟩ := nodeItems_shape (treeSize c') c' le_rfl b hbc'
    refine Or.inl ?_
    intro hpre
    rw [hra, hrb] at hpre
    have hname : c'.name = c.name := (consPre.mp hpre).1
    exact absurd (hname ▸ List.mem_map_of_mem FSTree.name hc') hnotin

theorem itemsF_pairwise : ∀ (k : Nat) (cs : List FSTree), treeSizeKids cs ≤ k →
    ((cs.map FSTree.name).Nodup) → wfKids cs = true →
    ((cs.map fun c => [c.name]) ++ nodeItemsKids cs).Pairwise
      (fun a b : List Str => ¬(b <+: a) ∨ b = a) := by
  intro k
  induction k with
  | zero =>
    intro cs hsz _ _
    cases cs with
    | nil => exact List.Pairwise.nil
    | cons c cs =>
      have := treeSize_pos c
      simp only [treeSizeKids] at hsz
      omega
  | succ k ih =>
    intro cs hsz hnd hwf
    have htree : ∀ c ∈ cs, (nodeItems c).Pairwise
        (fun a b : List Str => ¬(b <+: a) ∨ b = a) := by
      intro c hc
      cases c with
      | file n ct => simp [nodeItems]
      | dir m ds =>
        have hwtc : wfTree (FSTree.dir m ds) = true := wfKids_mem hwf hc
        simp only [wfTree, Bool.and_eq_true, decide_eq_true_eq] at hwtc
        have hszd : treeSizeKids ds ≤ k := by
          have h1 := treeSize_le_kids hc
          simp only [treeSize] at h1
          omega
        have hsub := ih ds hszd hwtc.1 hwtc.2
        show (((ds.map fun c => [c.name]) ++ nodeItemsKids ds).map (m :: ·)).Pairwise _
        rw [List.pairwise_map]
        refine hsub.imp ?_
        intro a b hab
        rcases hab with h1 | h2
        · exact Or.inl (fun hp => h1 (consPre.mp hp).2)
        · exact Or.inr (by rw [h2])
    rw [List.pairwise_append]
    refine ⟨singletons_pairwise cs, kids_pairwise_aux cs hnd htree, ?_⟩
    intro a ha b hb
    obtain ⟨ca, _, rfl⟩ := List.mem_map.mp ha
    obtain ⟨c', hc', hbc'⟩ := mem_nodeItemsKids hb
    obtain ⟨rb, hrb, hrbne⟩ := nodeItems_shape (treeSize c') c' le_rfl b hbc'
    refine Or.inl ?_
    intro hpre
    rw [hrb] at hpre
    obtain ⟨t, ht⟩ := hpre
    simp only [List.cons_append, List.nil_append] at ht
    injection ht with h1 h2
    exact hrbne (List.append_eq_nil.mp h2).1

theorem getAllItems_pairwise (cfg : Config) (fs : List FSTree) (h : wfFS fs = true) :
    (getAllItems cfg fs).Pairwise (fun a b : List Str => ¬(b <+: a) ∨ b = a) := by
  simp only [wfFS, Bool.and_eq_true, decide_eq_true_eq] at h
  unfold getAllItems
  cases hs : cfg.includeSubfolders
  · simp only [Bool.false_eq_true, if_false, List.append_nil]
    exact singletons_pairwise fs
  · simp only [if_true]
    exact itemsF_pairwise (treeSizeKids fs) fs le_rfl h.1 h.2

/-! ### Keyword protection (claim C5) -/

/-- An entry of the initial tree protected by the ignored-keyword rules: its
full path or bare name carries a keyword, or it is a content-scannable
(non-binary-extension) file whose decoded content carries a keyword. -/
def kwProtected (cfg : Config) (fs0 : List FSTree) (r : List Str) : Prop :=
  existsFS fs0 r = true ∧
  (containsIgnoredWord cfg (fullPath cfg r) = true ∨
   containsIgnoredWord cfg (baseName r) = true ∨
   (isFileFS fs0 r = true ∧ shouldIgnoreFile (fullPath cfg r) = false ∧
     ∃ c, readFS fs0 r = some c ∧ containsIgnoredWord cfg c = true))

/-- The third protection alternative in isolation (used as a fold invariant). -/
def kwContentFile (cfg : Config) (fs0 : List FSTree) (r : List Str) : Prop :=
  isFileFS fs0 r = true ∧ shouldIgnoreFile (fullPath cfg r) = false ∧
  ∃ c, readFS fs0 r = some c ∧ containsIgnoredWord cfg c = true

/-- The event neither renames nor rewrites any protected entry. -/
def evSafe (cfg : Config) (fs0 : List FSTree) (ev : Ev) : Prop :=
  ∀ r, kwProtected cfg fs0 r → (∀ n, ev ≠ .renamed r n) ∧ (∀ k, ev ≠ .wrote r k)

/-- No event of the log renames or rewrites a protected entry. -/
def logSafe (cfg : Config) (fs0 : List FSTree) (l : List Ev) : Prop :=
  ∀ ev ∈ l, evSafe cfg fs0 ev

theorem evSafe_of_shape (cfg : Config) (fs0 : List FSTree) (e : Ev)
    (h1 : ∀ r n, e ≠ .renamed r n) (h2 : ∀ r k, e ≠ .wrote r k) : evSafe cfg fs0 e :=
  fun r _ => ⟨fun n => h1 r n, fun k => h2 r k⟩

theorem logSafe_append (cfg : Config) (fs0 : List FSTree) {l : List Ev} {e : Ev}
    (hl : logSafe cfg fs0 l) (he : evSafe cfg fs0 e) : logSafe cfg fs0 (l ++ [e]) := by
  intro ev hev
  rcases List.mem_append.mp hev with h | h
  · exact hl ev h
  · rw [List.mem_singleton.mp h]
    exact he

/-- `_process_file_content` either leaves the state alone or writes back the
file it was given, and then only when the current content is keyword-free. -/
theorem processFileContent_cases (cfg : Config) (st : RSt) (rel : List Str) :
    (processFileContent cfg st rel).1 = st ∨
    (∃ c, readFS st.fs rel = some c ∧ containsIgnoredWord cfg c = false ∧
      (processFileContent cfg st rel).1 =
        { st with fs := writeFS st.fs rel (replaceTextInString cfg c),
                  log := st.log ++ [.wrote rel (countOccurrences cfg c)] }) := by
  simp only [processFileContent]
  split
  · exact Or.inl rfl
  · split
    · exact Or.inl rfl
    · rename_i c hc
      split
      · exact Or.inl rfl
      · rename_i hguard
        refine Or.inr ⟨c, hc, ?_, rfl⟩
        have hg : (containsIgnoredWord cfg c || !textMatches cfg c) = false :=
          Bool.eq_false_iff.mpr hguard
        exact (Bool.or_eq_false_iff.mp hg).1

/-- `_process_item_name` either leaves the state alone, or emits a skip event,
or performs the rename; the rename branch records all four guards. -/
theorem processItemName_cases (cfg : Config) (st : RSt) (rel : List Str) :
    (processItemName cfg st rel).1 = st ∨
    (∃ e, (processItemName cfg st rel).1 = st.emit e ∧
      (∀ r n, e ≠ .renamed r n) ∧ (∀ r k, e ≠ .wrote r k)) ∨
    ((isFileFS st.fs rel && !shouldIgnoreFile (fullPath cfg rel) &&
        itemNameContentBlocks cfg (readFS st.fs rel)) = false ∧
      textMatches cfg (baseName rel) = true ∧
      existsFS st.fs (rel.dropLast ++ [replaceTextInString cfg (baseName rel)]) = false ∧
      existsFS st.fs rel = true ∧
      (processItemName cfg st rel).1 =
        { st with fs := renameFS st.fs rel (replaceTextInString cfg (baseName rel)),
                  log := st.log ++ [.renamed rel (replaceTextInString cfg (baseName rel))] }) := by
  simp only [processItemName]
  split
  · exact Or.inl rfl
  · split
    · exact Or.inl rfl
    · rename_i hguard
      split
      · exact Or.inl rfl
      · rename_i htm
        split
        · refine Or.inr (Or.inl ⟨Ev.renameExists _, rfl, ?_, ?_⟩)
          · intro r n h
            cases h
          · intro r k h
            cases h
        · rename_i hnew
          split
          · refine Or.inr (Or.inl ⟨Ev.renameError _, rfl, ?_, ?_⟩)
            · intro r n h
              cases h
            · intro r k h
              cases h
          · rename_i hsrc
            refine Or.inr (Or.inr ⟨?_, ?_, ?_, ?_, rfl⟩)
            · exact Bool.of_not_eq_true hguard
            · have := Bool.of_not_eq_true htm
              simpa using this
            · exact Bool.of_not_eq_true hnew
            · have := Bool.of_not_eq_true hsrc
              simpa using this

/-- The content pass never writes to a protected entry and keeps the contents
of keyword-bearing scannable files (and all file/dir statuses) intact. -/
theorem phase1_fold_safe (cfg : Config) (fs0 : List FSTree) :
    ∀ (l : List (List Str)) (st : RSt),
      (∀ x ∈ l, containsIgnoredWord cfg (fullPath cfg x) = false) →
      logSafe cfg fs0 st.log →
      (∀ r, kwContentFile cfg fs0 r → readFS st.fs r = readFS fs0 r) →
      (∀ r, isFileFS st.fs r = isFileFS fs0 r) →
      logSafe cfg fs0 ((l.foldl (phase1Step cfg) st).log) ∧
      (∀ r, kwContentFile cfg fs0 r →
        readFS (l.foldl (phase1Step cfg) st).fs r = readFS fs0 r) ∧
      (∀ r, isFileFS (l.foldl (phase1Step cfg) st).fs r = isFileFS fs0 r) := by
  intro l
  induction l with
  | nil => exact fun st _ h1 h2 h3 => ⟨h1, h2, h3⟩
  | cons y rest ih =>
    intro st hmem hlog hrd hif
    rw [List.foldl_cons]
    have hmem' : ∀ x ∈ rest, containsIgnoredWord cfg (fullPath cfg x) = false :=
      fun x hx => hmem x (List.mem_cons_of_mem _ hx)
    simp only [phase1Step]
    split
    · exact ih st hmem' hlog hrd hif
    · split
      · refine ih _ hmem' ?_ hrd hif
        exact logSafe_append cfg fs0 hlog
          (evSafe_of_shape cfg fs0 _ (fun r n h => by cases h) (fun r k h => by cases h))
      · rename_i hbn
        have hbn' : containsIgnoredWord cfg (baseName y) = false := Bool.eq_false_iff.mpr hbn
        have hlog2 : logSafe cfg fs0 ((st.tick.emit (.visitedFile y)).log) :=
          logSafe_append cfg fs0 hlog
            (evSafe_of_shape cfg fs0 _ (fun r n h => by cases h) (fun r k h => by cases h))
        rcases processFileContent_cases cfg (st.tick.emit (.visitedFile y)) y with hsame | hwr
        · rw [hsame]
          exact ih _ hmem' hlog2 hrd hif
        · obtain ⟨c, hcread, hckw, hres⟩ := hwr
          rw [hres]
          have hyr : ∀ r, kwContentFile cfg fs0 r → r ≠ y := by
            intro r hr hry
            obtain ⟨_, _, c0, hc0, hkw0⟩ := hr
            subst hry
            have : readFS st.fs r = readFS fs0 r := hrd r ⟨by assumption, by assumption,
              c0, hc0, hkw0⟩
            rw [show (st.tick.emit (Ev.visitedFile r)).fs = st.fs from rfl, this, hc0] at hcread
            injection hcread with hcc
            rw [hcc] at hkw0
            rw [hkw0] at hckw
            cases hckw
          refine ih _ hmem' ?_ ?_ ?_
          · show logSafe cfg fs0 ((st.tick.emit (.visitedFile y)).log ++ [.wrote y _])
            refine logSafe_append cfg fs0 hlog2 ?_
            intro r hrp
            constructor
            · intro n h
              cases h
            intro k h
            injection h with h1 h2
            rcases hrp with ⟨hex, hcase⟩
            rcases hcase with hc1 | hc2 | hc3
            · rw [← h1] at hc1
              rw [hmem y (List.mem_cons_self _ _)] at hc1
              cases hc1
            · rw [← h1] at hc2
              rw [hbn'] at hc2
              cases hc2
            · exact hyr r hc3 h1.symm
          · intro r hr
            show readFS (writeFS (st.tick.emit (Ev.visitedFile y)).fs y _) r = _
            rw [writeFS_frame y _ _ r (hyr r hr)]
            exact hrd r hr
          · intro r
            show isFileFS (writeFS (st.tick.emit (Ev.visitedFile y)).fs y _) r = _
            rw [(writeFS_shape y _ _ r).1]
            exact hif r

/-- The rename pass never renames a protected entry: path- and name-keyword
entries are screened by the caller's filter and the per-entry guard, and a
scannable keyword-content file still holds its original content when its turn
comes (descendants are processed before ancestors), so the content guard fires. -/
theorem phase2_fold_safe (cfg : Config) (fs0 : List FSTree) :
    ∀ (L : List (List Str)) (st : RSt),
      (∀ x ∈ L, containsIgnoredWord cfg (fullPath cfg x) = false) →
      L.Pairwise (fun a b : List Str => ¬(a <+: b) ∨ a = b) →
      logSafe cfg fs0 st.log →
      (∀ r ∈ L, kwContentFile cfg fs0 r →
        readFS st.fs r = readFS fs0 r ∧ isFileFS st.fs r = true) →
      logSafe cfg fs0 ((L.foldl (phase2Step cfg) st).log) := by
  intro L
  induction L with
  | nil => exact fun st _ _ h _ => h
  | cons y rest ih =>
    intro st hmem hpw hlog hinv
    rw [List.foldl_cons]
    have hmem' : ∀ x ∈ rest, containsIgnoredWord cfg (fullPath cfg x) = false :=
      fun x hx => hmem x (List.mem_cons_of_mem _ hx)
    have hpw' := List.Pairwise.of_cons hpw
    have hpwh : ∀ r ∈ rest, ¬(y <+: r) ∨ y = r := (List.pairwise_cons.mp hpw).1
    simp only [phase2Step]
    split
    · exact ih st hmem' hpw' hlog (fun r hr => hinv r (List.mem_cons_of_mem _ hr))
    · have hlog2 : logSafe cfg fs0 ((st.tick.emit (.visitedRename y)).log) :=
        logSafe_append cfg fs0 hlog
          (evSafe_of_shape cfg fs0 _ (fun r n h => by cases h) (fun r k h => by cases h))
      split
      · exact ih _ hmem' hpw' hlog2 (fun r hr => hinv r (List.mem_cons_of_mem _ hr))
      · rename_i hbn
        have hbn' : containsIgnoredWord cfg (baseName y) = false := Bool.eq_false_iff.mpr hbn
        rcases processItemName_cases cfg (st.tick.emit (.visitedRename y)) y with
          hsame | ⟨e, hres, he1, he2⟩ | ⟨hguard, htm, hnew, hex, hres⟩
        · rw [hsame]
          exact ih _ hmem' hpw' hlog2 (fun r hr => hinv r (List.mem_cons_of_mem _ hr))
        · rw [hres]
          refine ih _ hmem' hpw' ?_ (fun r hr => hinv r (List.mem_cons_of_mem _ hr))
          exact logSafe_append cfg fs0 hlog2 (evSafe_of_shape cfg fs0 e he1 he2)
        · rw [show (st.tick.emit (Ev.visitedRename y)).fs = st.fs from rfl] at hguard hnew hex hres
          have hnp3 : ¬ kwContentFile cfg fs0 y := by
            intro hky
            obtain ⟨hf0, hbin, c, hc, hkw⟩ := hky
            have h2 := hinv y (List.mem_cons_self _ _) ⟨hf0, hbin, c, hc, hkw⟩
            rw [h2.2, hbin, h2.1, hc] at hguard
            simp [itemNameContentBlocks, hkw] at hguard
          rw [hres]
          have hsafe : evSafe cfg fs0 (.renamed y (replaceTextInString cfg (baseName y))) := by
            intro r hrp
            constructor
            · intro n h
              injection h with h1 h2
              rcases hrp with ⟨hexr, hc1 | hc2 | hc3⟩
              · rw [← h1, hmem y (List.mem_cons_self _ _)] at hc1
                cases hc1
              · rw [← h1, hbn'] at hc2
                cases hc2
              · exact hnp3 (h1 ▸ hc3)
            · intro k h
              cases h
          refine ih _ hmem' hpw' (logSafe_append cfg fs0 hlog2 hsafe) ?_
          intro r hr hrC
          have hprev := hinv r (List.mem_cons_of_mem _ hr) hrC
          have hyner : y ≠ r := fun he => hnp3 (he ▸ hrC)
          have hnpre : ¬(y <+: r) := by
            rcases hpwh r hr with h | h
            · exact h
            · exact absurd h hyner
          obtain ⟨hf0, hbin, c, hc, hkw⟩ := hrC
          have hrdsome : readFS st.fs r = some c := by rw [hprev.1, hc]
          have hnt : ¬((y.dropLast ++ [replaceTextInString cfg (baseName y)]) <+: r) := by
            intro hpre
            obtain ⟨s, hs⟩ := hpre
            cases hl : lookupFS st.fs r with
            | none => simp [readFS, hl] at hrdsome
            | some node =>
              have hexT := existsFS_of_prefix (y.dropLast ++ [replaceTextInString cfg (baseName y)])
                st.fs s node (by rw [hs]; exact hl) (by simp)
              rw [hexT] at hnew
              cases hnew
          have hfr := renameFS_frame y st.fs (replaceTextInString cfg (baseName y)) r hnpre hnt
          exact ⟨hfr.1.trans hprev.1, hfr.2.trans hprev.2⟩

/-- An InPlace run started on a well-formed tree never renames or rewrites a
keyword-protected entry. -/
theorem runReplacement_safe (cfg : Config) (fs0 : List FSTree) (stopA : Option Nat)
    (hwf : wfFS fs0 = true) :
    logSafe cfg fs0 ((runReplacement cfg ⟨fs0, [], 0, stopA⟩).log) := by
  simp only [runReplacement]
  have hph1 := phase1_fold_safe cfg fs0
    (((getAllItems cfg fs0).filter
        (fun r => !containsIgnoredWord cfg (fullPath cfg r))).filter
        (fun r => isFileFS fs0 r))
    ⟨fs0, [], 0, stopA⟩
    (by
      intro x hx
      have hx1 := (List.mem_filter.mp hx).1
      have := (List.mem_filter.mp hx1).2
      simpa using this)
    (fun ev hev => absurd hev (List.not_mem_nil ev))
    (fun r _ => rfl)
    (fun r => rfl)
  refine phase2_fold_safe cfg fs0
    (((getAllItems cfg fs0).filter
        (fun r => !containsIgnoredWord cfg (fullPath cfg r))).reverse)
    _ ?_ ?_ hph1.1 ?_
  · intro x hx
    rw [List.mem_reverse] at hx
    have := (List.mem_filter.mp hx).2
    simpa using this
  · rw [List.pairwise_reverse]
    exact List.Pairwise.sublist (List.filter_sublist _) (getAllItems_pairwise cfg fs0 hwf)
  · intro r hr hrC
    exact ⟨hph1.2.1 r hrC, (hph1.2.2 r).trans hrC.1⟩

/-! ### Copy modes never rename, and write only to freshly created entries -/

/-- Copy modes only add entries: everything that existed keeps existing. -/
def fsGrows (fs0 : List FSTree) (st : RSt) : Prop :=
  ∀ q, existsFS fs0 q = true → existsFS st.fs q = true

/-- Copy-mode log safety: no rename events at all, and every write targets a
path that did not exist in the initial tree. -/
def logSafeC (fs0 : List FSTree) (l : List Ev) : Prop :=
  ∀ ev ∈ l, (∀ r n, ev ≠ .renamed r n) ∧ (∀ r k, ev = .wrote r k → existsFS fs0 r = false)

theorem logSafe_of_logSafeC (cfg : Config) (fs0 : List FSTree) (l : List Ev)
    (h : logSafeC fs0 l) : logSafe cfg fs0 l := by
  intro ev hev r hrp
  refine ⟨fun n => (h ev hev).1 r n, fun k hk => ?_⟩
  have := (h ev hev).2 r k hk
  rw [hrp.1] at this
  cases this

theorem logSafeC_append (fs0 : List FSTree) {l : List Ev} {e : Ev}
    (hl : logSafeC fs0 l)
    (he : (∀ r n, e ≠ .renamed r n) ∧ (∀ r k, e = .wrote r k → existsFS fs0 r = false)) :
    logSafeC fs0 (l ++ [e]) := by
  intro ev hev
  rcases List.mem_append.mp hev with h | h
  · exact hl ev h
  · rw [List.mem_singleton.mp h]
    exact he

theorem logSafeC_append_shape (fs0 : List FSTree) {l : List Ev} {e : Ev}
    (hl : logSafeC fs0 l) (h1 : ∀ r n, e ≠ .renamed r n) (h2 : ∀ r k, e ≠ .wrote r k) :
    logSafeC fs0 (l ++ [e]) :=
  logSafeC_append fs0 hl ⟨h1, fun r k hk => absurd hk (h2 r k)⟩

theorem fsGrows_fresh {fs0 : List FSTree} {st : RSt} (hG : fsGrows fs0 st) {t : List Str}
    (h : existsFS st.fs t = false) : existsFS fs0 t = false := by
  cases hq : existsFS fs0 t
  · rfl
  · rw [hG t hq] at h
    cases h

theorem fsGrows_create (fs0 : List FSTree) (st : RSt) (parent : List Str) (t : FSTree)
    (hG : fsGrows fs0 st) : fsGrows fs0 { st with fs := createFS st.fs parent t } :=
  fun q hq => createFS_exists_mono parent st.fs t q (hG q hq)

/-- The collision-resolved target name of `_process_copy_with_replace` /
`_simulate_copy_with_replace` is always free in the target directory. -/
theorem fresh_if_unique (fs : List FSTree) (tp : List Str) (srcName newName0 : Str) :
    existsFS fs (tp ++ [if existsFS fs (tp ++ [newName0]) = true then
      getUniqueName (namesInFS fs tp) srcName else newName0]) = false := by
  by_cases h : existsFS fs (tp ++ [newName0]) = true
  · rw [if_pos h]
    cases hq : existsFS fs (tp ++ [getUniqueName (namesInFS fs tp) srcName]) with
    | false => rfl
    | true => exact absurd (existsFS_append_name tp fs _ hq) (getUniqueName_free _ _)
  · rw [if_neg h]
    exact Bool.eq_false_iff.mpr h

/-- Writing into a freshly created copy keeps the growth and safety invariants. -/
theorem processFileContent_safeC (cfg : Config) (fs0 : List FSTree) (st : RSt) (rel : List Str)
    (hG : fsGrows fs0 st) (hL : logSafeC fs0 st.log) (hfresh : existsFS fs0 rel = false) :
    fsGrows fs0 (processFileContent cfg st rel).1 ∧
    logSafeC fs0 (processFileContent cfg st rel).1.log := by
  rcases processFileContent_cases cfg st rel with hsame | ⟨c, _, _, hres⟩
  · rw [hsame]
    exact ⟨hG, hL⟩
  · rw [hres]
    constructor
    · intro q hq
      show existsFS (writeFS st.fs rel _) q = true
      rw [(writeFS_shape rel st.fs _ q).2]
      exact hG q hq
    · refine logSafeC_append fs0 hL ⟨?_, ?_⟩
      · intro r n h
        cases h
      · intro r k h
        injection h with h1 h2
        rw [← h1]
        exact hfresh

theorem copyFileWrite_safe (cfg : Config) (fs0 : List FSTree) (st : RSt)
    (tp : List Str) (nn : Str) (content : Str) (e : Ev)
    (hG : fsGrows fs0 st) (hL : logSafeC fs0 st.log)
    (hfresh : existsFS st.fs (tp ++ [nn]) = false)
    (he1 : ∀ r n, e ≠ .renamed r n) (he2 : ∀ r k, e ≠ .wrote r k) :
    fsGrows fs0 ((processFileContent cfg
        { st with fs := createFS st.fs tp (.file nn content) } (tp ++ [nn])).1.emit e) ∧
    logSafeC fs0 ((processFileContent cfg
        { st with fs := createFS st.fs tp (.file nn content) } (tp ++ [nn])).1.emit e).log := by
  have hG' := fsGrows_create fs0 st tp (.file nn content) hG
  have hpc := processFileContent_safeC cfg fs0 _ (tp ++ [nn]) hG' hL (fsGrows_fresh hG hfresh)
  exact ⟨hpc.1, logSafeC_append_shape fs0 hpc.2 he1 he2⟩

theorem copyDirStep_safe (cfg : Config) (fs0 : List FSTree) (fuel : Nat)
    (ih : ∀ (srcRel tp : List Str) (st : RSt), fsGrows fs0 st → logSafeC fs0 st.log →
      fsGrows fs0 (processCopyWithReplace cfg fuel srcRel tp st).1 ∧
      logSafeC fs0 (processCopyWithReplace cfg fuel srcRel tp st).1.log)
    (st : RSt) (tp srcRel : List Str) (nn : Str) (names : List Str) (e : Ev)
    (hG : fsGrows fs0 st) (hL : logSafeC fs0 st.log)
    (he1 : ∀ r n, e ≠ .renamed r n) (he2 : ∀ r k, e ≠ .wrote r k) :
    fsGrows fs0 ((names.foldl (fun s child =>
        (processCopyWithReplace cfg fuel (srcRel ++ [child]) (tp ++ [nn]) s).1)
        { st with fs := createFS st.fs tp (.dir nn []) }).emit e) ∧
    logSafeC fs0 ((names.foldl (fun s child =>
        (processCopyWithReplace cfg fuel (srcRel ++ [child]) (tp ++ [nn]) s).1)
        { st with fs := createFS st.fs tp (.dir nn []) }).emit e).log := by
  have hP := foldl_preserve
    (fun s child => (processCopyWithReplace cfg fuel (srcRel ++ [child]) (tp ++ [nn]) s).1)
    (fun s => fsGrows fs0 s ∧ logSafeC fs0 s.log)
    (fun s child hp => ih (srcRel ++ [child]) (tp ++ [nn]) s hp.1 hp.2)
    names { st with fs := createFS st.fs tp (.dir nn []) }
    ⟨fsGrows_create fs0 st tp (.dir nn []) hG, hL⟩
  exact ⟨hP.1, logSafeC_append_shape fs0 hP.2 he1 he2⟩

/-- `_process_copy_with_replace` keeps every original entry in place, performs
no rename, and writes only into the copies it has just created. -/
theorem processCopyWithReplace_safe (cfg : Config) (fs0 : List FSTree) :
    ∀ (fuel : Nat) (srcRel tp : List Str) (st : RSt),
      fsGrows fs0 st → logSafeC fs0 st.log →
      fsGrows fs0 (processCopyWithReplace cfg fuel srcRel tp st).1 ∧
      logSafeC fs0 (processCopyWithReplace cfg fuel srcRel tp st).1.log := by
  intro fuel
  induction fuel with
  | zero => exact fun _ _ st hG hL => ⟨hG, hL⟩
  | succ fuel ih =>
    intro srcRel tp st hG hL
    simp only [processCopyWithReplace]
    split
    · exact ⟨hG, hL⟩
    · split
      · exact ⟨hG, hL⟩
      · split
        · split
          · refine ⟨hG, logSafeC_append_shape fs0 hL ?_ ?_⟩
            · intro r n h
              cases h
            · intro r k h
              cases h
          · split
            · rename_i nm content heq
              split
              · exact ⟨hG, hL⟩
              · split
                · exact ⟨hG, hL⟩
                · refine copyFileWrite_safe cfg fs0 st tp _ content _ hG hL
                    (fresh_if_unique st.fs tp (baseName srcRel) _) ?_ ?_
                  · intro r n h
                    cases h
                  · intro r k h
                    cases h
            · rename_i nm cs heq
              refine copyDirStep_safe cfg fs0 fuel ih st tp srcRel _ (cs.map FSTree.name) _
                hG hL ?_ ?_
              · intro r n h
                cases h
              · intro r k h
                cases h
            · refine ⟨hG, logSafeC_append_shape fs0 hL ?_ ?_⟩
              · intro r n h
                cases h
              · intro r k h
                cases h
        · split
          · refine ⟨hG, logSafeC_append_shape fs0 hL ?_ ?_⟩
            · intro r n h
              cases h
            · intro r k h
              cases h
          · split
            · rename_i nm content heq
              split
              · exact ⟨hG, hL⟩
              · split
                · exact ⟨hG, hL⟩
                · refine copyFileWrite_safe cfg fs0 st tp _ content _ hG hL
                    (fresh_if_unique st.fs tp (baseName srcRel) _) ?_ ?_
                  · intro r n h
                    cases h
                  · intro r k h
                    cases h
            · rename_i nm cs heq
              refine copyDirStep_safe cfg fs0 fuel ih st tp srcRel _ (cs.map FSTree.name) _
                hG hL ?_ ?_
              · intro r n h
                cases h
              · intro r k h
                cases h
            · refine ⟨hG, logSafeC_append_shape fs0 hL ?_ ?_⟩
              · intro r n h
                cases h
              · intro r k h
                cases h

theorem copy1Step_safe (cfg : Config) (fs0 : List FSTree) (fuel : Nat) (st : RSt)
    (rel : List Str) (hG : fsGrows fs0 st) (hL : logSafeC fs0 st.log) :
    fsGrows fs0 (copy1Step cfg fuel st rel) ∧ logSafeC fs0 (copy1Step cfg fuel st rel).log := by
  simp only [copy1Step]
  split
  · exact ⟨hG, hL⟩
  · have hL2 : logSafeC fs0 ((st.tick.emit (.visitedCopy rel)).log) := by
      refine logSafeC_append_shape fs0 hL ?_ ?_
      · intro r n h
        cases h
      · intro r k h
        cases h
    split
    · exact ⟨hG, hL2⟩
    · exact processCopyWithReplace_safe cfg fs0 fuel rel [] _ hG hL2

theorem copy1ContentStep_safe (cfg : Config) (fs0 : List FSTree) (st : RSt) (rel : List Str)
    (hG : fsGrows fs0 st) (hL : logSafeC fs0 st.log) :
    fsGrows fs0 (copy1ContentStep cfg st rel) ∧
    logSafeC fs0 (copy1ContentStep cfg st rel).log := by
  simp only [copy1ContentStep]
  split
  · exact ⟨hG, hL⟩
  · split
    · exact ⟨hG, hL⟩
    · split
      · exact ⟨hG, hL⟩
      · split
        · exact ⟨hG, hL⟩
        · rename_i content heq
          split
          · exact ⟨hG, hL⟩
          · have hfresh : existsFS st.fs
                [getUniqueName (namesInFS st.fs []) (baseName rel)] = false := by
              cases hq : existsFS st.fs
                  [getUniqueName (namesInFS st.fs []) (baseName rel)] with
              | false => rfl
              | true =>
                exact absurd (existsFS_append_name [] st.fs _ hq) (getUniqueName_free _ _)
            have hpc := processFileContent_safeC cfg fs0
              { st with fs := createFS st.fs [] (.file (getUniqueName (namesInFS st.fs []) (baseName rel)) content) }
              [getUniqueName (namesInFS st.fs []) (baseName rel)]
              (fsGrows_create fs0 st [] _ hG) hL (fsGrows_fresh hG hfresh)
            split
            · refine ⟨hpc.1, logSafeC_append_shape fs0 hpc.2 ?_ ?_⟩
              · intro r n h
                cases h
              · intro r k h
                cases h
            · exact hpc

/-- A SiblingCopy run only adds entries and its log renames nothing and writes
only to paths absent from the initial tree. -/
theorem runCopy1_safe (cfg : Config) (fs0 : List FSTree) (stopA : Option Nat) :
    logSafeC fs0 ((runCopy1 cfg ⟨fs0, [], 0, stopA⟩).log) := by
  simp only [runCopy1]
  refine (foldl_preserve (copy1ContentStep cfg)
    (fun s => fsGrows fs0 s ∧ logSafeC fs0 s.log)
    (fun s x hp => copy1ContentStep_safe cfg fs0 s x hp.1 hp.2) _ _ ?_).2
  refine foldl_preserve (copy1Step cfg _)
    (fun s => fsGrows fs0 s ∧ logSafeC fs0 s.log)
    (fun s x hp => copy1Step_safe cfg fs0 _ s x hp.1 hp.2) _ _ ?_
  exact ⟨fun q hq => hq, fun ev hev => absurd hev (List.not_mem_nil ev)⟩

/-- `_process_dir` (all four passes) only adds entries, never renames, and
writes only into its freshly created copies. -/
theorem processDir_safe (cfg : Config) (fs0 : List FSTree) :
    ∀ (fuel : Nat) (dirRel : List Str) (st : RSt),
      fsGrows fs0 st → logSafeC fs0 st.log →
      fsGrows fs0 (processDir cfg fuel dirRel st) ∧
      logSafeC fs0 (processDir cfg fuel dirRel st).log := by
  intro fuel
  induction fuel with
  | zero => exact fun _ st hG hL => ⟨hG, hL⟩
  | succ fuel ih =>
    intro dirRel st hG hL
    simp only [processDir]
    split
    · exact ⟨hG, hL⟩
    · refine foldl_preserve (fun s newRel => processDir cfg fuel newRel s)
        (fun s => fsGrows fs0 s ∧ logSafeC fs0 s.log)
        (fun s x hp => ih x s hp.1 hp.2) _ _ ?_
      refine foldl_preserve _ (fun s => fsGrows fs0 s ∧ logSafeC fs0 s.log) ?_ _ _ ?_
      · intro s item hp
        split
        · exact ih _ s hp.1 hp.2
        · exact hp
      refine foldl_preserve _ (fun s => fsGrows fs0 s ∧ logSafeC fs0 s.log) ?_ _ _ ?_
      · intro s item hp
        split
        · split
          · exact hp
          · split
            · exact hp
            · split
              · exact hp
              · rename_i content heq
                split
                · exact hp
                · have hfresh : existsFS s.fs
                      (dirRel ++ [getUniqueName (namesInFS s.fs dirRel) item]) = false := by
                    cases hq : existsFS s.fs
                        (dirRel ++ [getUniqueName (namesInFS s.fs dirRel) item]) with
                    | false => rfl
                    | true =>
                      exact absurd (existsFS_append_name dirRel s.fs _ hq)
                        (getUniqueName_free _ _)
                  have hpc := processFileContent_safeC cfg fs0
                    { s with fs := createFS s.fs dirRel (.file (getUniqueName (namesInFS s.fs dirRel) item) content) }
                    (dirRel ++ [getUniqueName (namesInFS s.fs dirRel) item])
                    (fsGrows_create fs0 s dirRel _ hp.1) hp.2 (fsGrows_fresh hp.1 hfresh)
                  refine ⟨hpc.1, logSafeC_append_shape fs0 hpc.2 ?_ ?_⟩
                  · intro r n h
                    cases h
                  · intro r k h
                    cases h
        · exact hp
      refine foldl_preserve _
        (fun acc : RSt × List (List Str) => fsGrows fs0 acc.1 ∧ logSafeC fs0 acc.1.log)
        ?_ _ _ ⟨hG, hL⟩
      intro acc item hp
      split
      · exact hp
      · split
        · exact hp
        · split
          · refine ⟨hp.1, logSafeC_append_shape fs0 hp.2 ?_ ?_⟩
            · intro r n h
              cases h
            · intro r k h
              cases h
          · rename_i hne
            split
            · rename_i nm content heq
              split
              · exact hp
              · split
                · exact hp
                · have hfresh : existsFS acc.1.fs
                      (dirRel ++ [replaceTextInString cfg item]) = false :=
                    Bool.eq_false_iff.mpr hne
                  have hpc := processFileContent_safeC cfg fs0
                    { acc.1 with fs := createFS acc.1.fs dirRel (.file (replaceTextInString cfg item) content) }
                    (dirRel ++ [replaceTextInString cfg item])
                    (fsGrows_create fs0 acc.1 dirRel _ hp.1) hp.2 (fsGrows_fresh hp.1 hfresh)
                  refine ⟨hpc.1, logSafeC_append_shape fs0 hpc.2 ?_ ?_⟩
                  · intro r n h
                    cases h
                  · intro r k h
                    cases h
            · rename_i nm cs heq
              refine ⟨fun q hq => createFS_exists_mono dirRel acc.1.fs _ q (hp.1 q hq),
                logSafeC_append_shape fs0 hp.2 ?_ ?_⟩
              · intro r n h
                cases h
              · intro r k h
                cases h
            · exact hp

/-- A TreeCopy run's log renames nothing and writes only to paths absent from
the initial tree. -/
theorem runCopy2_safe (cfg : Config) (fs0 : List FSTree) (stopA : Option Nat) :
    logSafeC fs0 ((runCopy2 cfg ⟨fs0, [], 0, stopA⟩).log) := by
  exact (processDir_safe cfg fs0 (treeSizeKids fs0 + 1) [] ⟨fs0, [], 0, stopA⟩
    (fun q hq => hq) (fun ev hev => absurd hev (List.not_mem_nil ev))).2

/-- Claim C5 (counterexample to the claim as stated): (i) in an InPlace run on
the single file `img.png` whose content contains the ignored keyword `temp`,
the file is nevertheless renamed to `pic.png` — the rename pass skips the
content check for binary-extension files (src/main.py line 618), so
keyword-bearing content does not protect them from renaming; (ii) in a
SiblingCopy run with ignored keyword `q` and replacement `a` → `q`, the file
`na.txt` is duplicated as `nq.txt` and the duplicate's content is rewritten
(`wrote` event), although the bare name `nq.txt` contains the ignored keyword —
the keyword screens are applied to the source name only, not to the created
copy (src/main.py lines 372-416). -/
theorem claim_C5_counterexample :
    ((runReal ⟨strLit "/r", strLit "img", strLit "pic", true, false, true,
        [strLit "temp"], [], []⟩ .replace
        ⟨[FSTree.file (strLit "img.png") (strLit "temp stuff")], [], 0, none⟩).log =
      [.visitedFile [strLit "img.png"], .visitedRename [strLit "img.png"],
       .renamed [strLit "img.png"] (strLit "pic.png")] ∧
     readFS [FSTree.file (strLit "img.png") (strLit "temp stuff")] [strLit "img.png"] =
       some (strLit "temp stuff") ∧
     containsIgnoredWord ⟨strLit "/r", strLit "img", strLit "pic", true, false, true,
        [strLit "temp"], [], []⟩ (strLit "temp stuff") = true) ∧
    ((Ev.wrote [strLit "nq.txt"] 1) ∈
      (runReal ⟨strLit "/r", strLit "a", strLit "q", true, false, true,
        [strLit "q"], [], []⟩ .copy1
        ⟨[FSTree.file (strLit "na.txt") (strLit "a")], [], 0, none⟩).log ∧
     containsIgnoredWord ⟨strLit "/r", strLit "a", strLit "q", true, false, true,
        [strLit "q"], [], []⟩ (baseName [strLit "nq.txt"]) = true) := by
  exact ⟨⟨by decide, by decide, by decide⟩, ⟨by decide, by decide⟩⟩

/-- Claim C5 (amended): for every real run in any mode on a well-formed initial
tree, an entry *of the initial tree* whose full path or bare name contains an
ignored keyword (case-insensitively), or which is a content-scannable
(non-binary-extension) file whose decoded content contains an ignored keyword,
is never renamed and never has its content rewritten — no `renamed` or `wrote`
event of the run's log targets it.  (The claim as stated is false for
binary-extension files with keyword-bearing content, which are still renamed,
and for freshly created copies whose new name carries a keyword, whose content
is still rewritten; see `claim_C5_counterexample`.) -/
theorem claim_C5_ignored_keyword_exemption (cfg : Config) (fs0 : List FSTree)
    (mode : Mode) (stopA : Option Nat) (hwf : wfFS fs0 = true) :
    ∀ ev ∈ (runReal cfg mode ⟨fs0, [], 0, stopA⟩).log, ∀ r, kwProtected cfg fs0 r →
      (∀ n, ev ≠ .renamed r n) ∧ (∀ k, ev ≠ .wrote r k) := by
  cases mode with
  | replace => exact fun ev hev r hr => runReplacement_safe cfg fs0 stopA hwf ev hev r hr
  | copy1 =>
    exact fun ev hev r hr =>
      logSafe_of_logSafeC cfg fs0 _ (runCopy1_safe cfg fs0 stopA) ev hev r hr
  | copy2 =>
    exact fun ev hev r hr =>
      logSafe_of_logSafeC cfg fs0 _ (runCopy2_safe cfg fs0 stopA) ev hev r hr

/-- Witness for claim C5: a concrete InPlace run (find `a`, replace `b`,
ignored keyword `temp`) on `a.txt` plus the protected `tempz.txt`; the first
logged event cannot be a rename of the protected entry. -/
theorem claim_C5_ignored_keyword_exemption_witness :
    wfFS [FSTree.file (strLit "a.txt") (strLit "hello"),
          FSTree.file (strLit "tempz.txt") (strLit "y")] = true ∧
    (∀ n, Ev.visitedFile [strLit "a.txt"] ≠ Ev.renamed [strLit "tempz.txt"] n) := by
  refine ⟨by decide, ?_⟩
  exact (claim_C5_ignored_keyword_exemption
    ⟨strLit "/r", strLit "a", strLit "b", true, false, true, [strLit "temp"], [], []⟩
    [FSTree.file (strLit "a.txt") (strLit "hello"),
     FSTree.file (strLit "tempz.txt") (strLit "y")]
    .replace none (by decide)
    (Ev.visitedFile [strLit "a.txt"]) (by decide)
    [strLit "tempz.txt"] ⟨by decide, Or.inl (by decide)⟩).1
